import Mathlib

/- Verification development for the sled log-structured page cache core.
   Shallow embedding of src/io/page/page_cache.rs, src/io/log/iterator.rs and
   src/io/log/reservation.rs.  Machine integers (PageID = usize, Lsn = i64,
   LogID = u64) are modelled as Nat: all values handled by the embedded code
   paths are non-negative and far from overflow. -/

namespace Sled

/-- Cache entry of a page's fragment stack, exactly the four variants used by
page_cache.rs (spec section 3): Resident and MergedResident carry an in-memory
fragment plus its log position, PartialFlush and Flush only carry the log
position. -/
inductive CacheEntry (P : Type) where
  | Resident (frag : P) (lsn : Nat) (lid : Nat)
  | MergedResident (frag : P) (lsn : Nat) (lid : Nat)
  | PartialFlush (lsn : Nat) (lid : Nat)
  | Flush (lsn : Nat) (lid : Nat)
  deriving DecidableEq

/-- Operation payload of a logged update (page_cache.rs `Update`). -/
inductive Update (P : Type) where
  | Append (frag : P)
  | Compact (frag : P)
  | Free
  | Alloc
  deriving DecidableEq

/-- A logged update: pid plus operation (page_cache.rs `LoggedUpdate`). -/
structure LoggedUpdate (P : Type) where
  pid : Nat
  update : Update P
  deriving DecidableEq

/-- What ends up in a log slot once its reservation is resolved: a completed
reservation leaves a flush entry holding the serialized update, an aborted
reservation leaves a zeroed slot (reservation.rs `flush(valid)`). -/
inductive LogData (P : Type) where
  | flushData (lu : LoggedUpdate P)
  | zeroedData
  deriving DecidableEq

/-- Segment-accountant calls made by the page cache (spec section 4.2); we
record them as events so that theorems can state that a failed operation
leaves the accountant untouched. -/
inductive SAEvent where
  | markLink (pid lsn lid : Nat)
  | markReplace (pid lsn : Nat) (old : List Nat) (lid : Nat)
  deriving DecidableEq

/-- State of the page cache visible to the embedded operations: the radix page
table (PageID to fragment stack, top first), the free-pid list, max_pid, the
log modelled as a map from reserved lsn to the resolved slot contents, the next
lsn handed out by `reserve`, and the trace of segment-accountant calls.
Reservation lsn/lid assignment lives in the io-buffer module outside src/;
modelled from the spec: `reserve` hands out strictly increasing lsns and we
identify lid with lsn (both are opaque keys to the code under src/). -/
structure PCState (P : Type) where
  table : Nat → Option (List (CacheEntry P))
  freePids : List Nat
  maxPid : Nat
  logMap : Nat → Option (LogData P)
  nextLsn : Nat
  saEvents : List SAEvent

/-- Log position (lsn, lid) stored in a cache entry. -/
def entryLL {P : Type} : CacheEntry P → Nat × Nat
  | .Resident _ l d => (l, d)
  | .MergedResident _ l d => (l, d)
  | .PartialFlush l d => (l, d)
  | .Flush l d => (l, d)

/-- In-memory fragment of a cache entry, when it has one. -/
def entryFrag {P : Type} : CacheEntry P → Option P
  | .Resident f _ _ => some f
  | .MergedResident f _ _ => some f
  | .PartialFlush _ _ => none
  | .Flush _ _ => none

/-- Embedding of `lids_from_stack` (page_cache.rs line 1056): the log IDs of
every entry of a stack, top first. -/
def lids_from_stack {P : Type} (stack : List (CacheEntry P)) : List Nat :=
  stack.map (fun e => (entryLL e).2)

/-- Embedding of `PageCache::pull` (page_cache.rs line 340): read a logged
update back from the log and extract its fragment.  `none` stands for the
panic taken when the slot does not hold a flushed Append/Compact. -/
def pullFrag {P : Type} (logMap : Nat → Option (LogData P)) (lsn : Nat)
    (_lid : Nat) : Option P :=
  match logMap lsn with
  | some (.flushData lu) =>
    match lu.update with
    | .Append f => some f
    | .Compact f => some f
    | _ => none
  | _ => none

/-- Pull a list of log positions in order, failing (panicking) if any single
pull fails; this is the serial fallback of the parallel pull loop in
`page_in` (page_cache.rs lines 417-429). -/
def pullAll {P : Type} (logMap : Nat → Option (LogData P)) :
    List (Nat × Nat) → Option (List P)
  | [] => some []
  | p :: rest =>
    match pullFrag logMap p.1 p.2, pullAll logMap rest with
    | some f, some fs => some (f :: fs)
    | _, _ => none

/-- Result of the stack-walking loop of `page_in` (page_cache.rs lines
377-403): either the short circuit taken when the very top entry is a
MergedResident, or the accumulated to_merge fragments, merged_resident flag,
(lsn, lid) list and fix_up_length. -/
inductive CollectRes (P : Type) where
  | shortCircuit (f : P)
  | done (to_merge : List P) (merged_resident : Bool) (lids : List (Nat × Nat))
      (fix_up_length : Nat)
  deriving DecidableEq

/-- The stack-walking loop of `page_in`, one constructor arm per match arm of
the source loop, with the four accumulator variables made explicit. -/
def collectGo {P : Type} : List (CacheEntry P) → List P → Bool →
    List (Nat × Nat) → Nat → CollectRes P
  | [], tm, mr, lids, fu => .done tm mr lids fu
  | .Resident f l d :: rest, tm, mr, lids, fu =>
    collectGo rest (if mr then tm else tm ++ [f]) mr (lids ++ [(l, d)]) fu
  | .MergedResident f l d :: rest, tm, mr, lids, fu =>
    if lids.isEmpty then .shortCircuit f
    else if mr then collectGo rest tm mr (lids ++ [(l, d)]) fu
    else collectGo rest (tm ++ [f]) true (lids ++ [(l, d)]) lids.length
  | .PartialFlush l d :: rest, tm, mr, lids, fu =>
    collectGo rest tm mr (lids ++ [(l, d)]) fu
  | .Flush l d :: rest, tm, mr, lids, fu =>
    collectGo rest tm mr (lids ++ [(l, d)]) fu

/-- Walk a stack from the top with empty accumulators, as `page_in` does. -/
def collectStack {P : Type} (stack : List (CacheEntry P)) : CollectRes P :=
  collectGo stack [] false [] 0

/-- Result of a `get`: the merged fragment, absence (a missing pid or an
empty stack both yield Rust `None`), or a panic inside `pull`. -/
inductive GetRes (P : Type) where
  | found (f : P)
  | absent
  | panicked
  deriving DecidableEq

/-- Value computed and returned by `page_in` (page_cache.rs lines 362-511).
The function mirrors the read path: walk the stack, short circuit on a top
MergedResident, return None when the stack is empty, pull the non-resident
tail when no MergedResident was seen, reverse the combined list so it is
oldest-first, and merge.  The consolidation / fix-up writes further down in
`page_in` never change the returned fragment (the function returns `merged`
on every surviving path), so the returned value is a pure function of the
stack and the log. -/
def page_in_read {P : Type} (merge : List P → P)
    (logMap : Nat → Option (LogData P)) (stack : List (CacheEntry P)) :
    GetRes P :=
  match collectStack stack with
  | .shortCircuit f => .found f
  | .done tm mr lids _fu =>
    if lids.isEmpty then .absent
    else
      let to_pull := if mr then [] else lids.drop tm.length
      match pullAll logMap to_pull with
      | none => .panicked
      | some fetched => .found (merge ((tm ++ fetched).reverse))

/-- Embedding of `PageCache::get` (page_cache.rs line 258): look the pid up in
the page table and page the stack in. -/
def getOp {P : Type} (merge : List P → P) (st : PCState P) (pid : Nat) :
    GetRes P :=
  match st.table pid with
  | none => .absent
  | some stack => page_in_read merge st.logMap stack

/-- Embedding of `PageCache::link` (page_cache.rs line 605).  Returns the
Rust result (`Ok new_head` / `Err None` / `Err (Some actual_head)`) together
with the successor state.  A missing pid returns before anything is reserved;
a failed CAS aborts the reservation (zeroing its slot); a successful CAS marks
the segment accountant and then completes the reservation.  `sa.clean` lives
in the missing segment-accountant module; modelled from the spec: it may
return a rewrite victim, and we model the no-victim outcome, so no recursive
rewrite happens here. -/
def linkOp {P : Type} [DecidableEq P] (st : PCState P) (pid : Nat)
    (old : List (CacheEntry P)) (new : P) :
    (Except (Option (List (CacheEntry P))) (List (CacheEntry P))) × PCState P :=
  match st.table pid with
  | none => (.error none, st)
  | some stack =>
    let lsn := st.nextLsn
    let lid := lsn
    let upd : LoggedUpdate P :=
      ⟨pid, if old.isEmpty then .Compact new else .Append new⟩
    if stack = old then
      let newStack := CacheEntry.Resident new lsn lid :: stack
      (.ok newStack,
        { st with
          table := fun q => if q = pid then some newStack else st.table q
          logMap := fun l => if l = lsn then some (.flushData upd) else st.logMap l
          nextLsn := lsn + 1
          saEvents := st.saEvents ++ [.markLink pid lsn lid] })
    else
      (.error (some stack),
        { st with
          logMap := fun l => if l = lsn then some .zeroedData else st.logMap l
          nextLsn := lsn + 1 })

/-- Embedding of `PageCache::replace` via `replace_recurse_once`
(page_cache.rs line 527), with `recursed = false` and the no-victim cleaning
outcome as in `linkOp`.  On success the stack is swapped for the single
MergedResident and mark_replace records the superseded log IDs. -/
def replaceOp {P : Type} [DecidableEq P] (st : PCState P) (pid : Nat)
    (old : List (CacheEntry P)) (new : P) :
    (Except (Option (List (CacheEntry P))) (List (CacheEntry P))) × PCState P :=
  match st.table pid with
  | none => (.error none, st)
  | some stack =>
    let lsn := st.nextLsn
    let lid := lsn
    let upd : LoggedUpdate P := ⟨pid, .Compact new⟩
    if stack = old then
      let newStack := [CacheEntry.MergedResident new lsn lid]
      (.ok newStack,
        { st with
          table := fun q => if q = pid then some newStack else st.table q
          logMap := fun l => if l = lsn then some (.flushData upd) else st.logMap l
          nextLsn := lsn + 1
          saEvents := st.saEvents ++ [.markReplace pid lsn (lids_from_stack old) lid] })
    else
      (.error (some stack),
        { st with
          logMap := fun l => if l = lsn then some .zeroedData else st.logMap l
          nextLsn := lsn + 1 })

/-- Embedding of `PageCache::allocate` (page_cache.rs line 184): pop a pid off
the free list or take max_pid, install an empty stack, and write an Alloc
update through `log.write`.  `log.write` lives in the log facade outside src/;
modelled from the spec (section 4.3): write = reserve followed directly by
complete, with no segment-accountant call. -/
def allocateOp {P : Type} (st : PCState P) : Nat × PCState P :=
  let (pid, freePids', maxPid') :=
    match st.freePids with
    | p :: rest => (p, rest, st.maxPid)
    | [] => (st.maxPid, [], st.maxPid + 1)
  let upd : LoggedUpdate P := ⟨pid, .Alloc⟩
  (pid,
    { st with
      table := fun q => if q = pid then some [] else st.table q
      freePids := freePids'
      maxPid := maxPid'
      logMap := fun l => if l = st.nextLsn then some (.flushData upd) else st.logMap l
      nextLsn := st.nextLsn + 1 })

/-- Embedding of `PageCache::free` (page_cache.rs line 208): a missing pid
returns before anything is logged; otherwise the pid is removed from the
table, a Free update is reserved, mark_replace is called with the old stack's
log IDs, the reservation completes, and the pid is (after the epoch closes)
pushed back on the free list. -/
def freeOp {P : Type} (st : PCState P) (pid : Nat) : PCState P :=
  match st.table pid with
  | none => st
  | some stack =>
    let lsn := st.nextLsn
    let lid := lsn
    let upd : LoggedUpdate P := ⟨pid, .Free⟩
    { st with
      table := fun q => if q = pid then none else st.table q
      freePids := st.freePids ++ [pid]
      logMap := fun l => if l = lsn then some (.flushData upd) else st.logMap l
      nextLsn := lsn + 1
      saEvents := st.saEvents ++ [.markReplace pid lsn (lids_from_stack stack) lid] }

/-- Page-cache state with nothing allocated and an empty log. -/
def emptyPC (P : Type) : PCState P :=
  ⟨fun _ => none, [], 0, fun _ => none, 0, []⟩

/-- C8: link and replace on a pid that is absent from the page table return
Err(None) before anything is reserved or written to the log, and get on such
a pid returns None. -/
theorem claim8_notfound_err_none {P : Type} [DecidableEq P]
    (merge : List P → P) (st : PCState P) (pid : Nat)
    (old : List (CacheEntry P)) (new : P) (h : st.table pid = none) :
    linkOp st pid old new = (.error none, st) ∧
    replaceOp st pid old new = (.error none, st) ∧
    getOp merge st pid = .absent := by
  refine ⟨?_, ?_, ?_⟩ <;> simp [linkOp, replaceOp, getOp, h]

theorem claim8_witness :
    linkOp (emptyPC Nat) 3 [] 7 = (.error none, emptyPC Nat) ∧
    replaceOp (emptyPC Nat) 3 [] 7 = (.error none, emptyPC Nat) ∧
    getOp (fun l => l.sum) (emptyPC Nat) 3 = .absent :=
  claim8_notfound_err_none (fun l => l.sum) (emptyPC Nat) 3 [] 7 rfl

/-- C9: allocate installs an empty stack for the returned pid, and get on
that pid returns None, exactly as it does for a pid that is missing from the
page table altogether. -/
theorem claim9_fresh_page_get_none {P : Type} (merge : List P → P)
    (st : PCState P) :
    (allocateOp st).2.table (allocateOp st).1 = some [] ∧
    getOp merge (allocateOp st).2 (allocateOp st).1 = .absent ∧
    (∀ q, st.table q = none → getOp merge st q = .absent) := by
  refine ⟨?_, ?_, fun q hq => ?_⟩
  · cases h : st.freePids <;> simp [allocateOp, h]
  · cases h : st.freePids <;>
      simp [allocateOp, h, getOp, page_in_read, collectStack, collectGo]
  · simp [getOp, hq]

theorem claim9_witness :
    (allocateOp (emptyPC Nat)).2.table 0 = some [] ∧
    getOp (fun l => l.sum) (allocateOp (emptyPC Nat)).2 0 = .absent ∧
    getOp (fun l => l.sum) (emptyPC Nat) 5 = .absent :=
  ⟨(claim9_fresh_page_get_none (fun l => l.sum) (emptyPC Nat)).1,
   (claim9_fresh_page_get_none (fun l => l.sum) (emptyPC Nat)).2.1,
   (claim9_fresh_page_get_none (fun l => l.sum) (emptyPC Nat)).2.2 5 rfl⟩

/-- C7: when the stack CAS of link or replace loses (the observed head differs
from the expected one), the operation returns Err(Some(actual_head)), its
reservation is aborted so the reserved slot holds a zeroed entry and never a
flush entry, no other log slot changes, and the page table (hence every
stack) and the segment accountant are left untouched. -/
theorem claim7_cas_failure_aborts {P : Type} [DecidableEq P]
    (st : PCState P) (pid : Nat) (old : List (CacheEntry P)) (new : P)
    (stack : List (CacheEntry P)) (h : st.table pid = some stack)
    (hne : stack ≠ old) :
    (linkOp st pid old new).1 = .error (some stack) ∧
    (linkOp st pid old new).2.table = st.table ∧
    (linkOp st pid old new).2.saEvents = st.saEvents ∧
    (linkOp st pid old new).2.logMap st.nextLsn = some .zeroedData ∧
    (∀ l, l ≠ st.nextLsn → (linkOp st pid old new).2.logMap l = st.logMap l) ∧
    (replaceOp st pid old new).1 = .error (some stack) ∧
    (replaceOp st pid old new).2.table = st.table ∧
    (replaceOp st pid old new).2.saEvents = st.saEvents ∧
    (replaceOp st pid old new).2.logMap st.nextLsn = some .zeroedData ∧
    (∀ l, l ≠ st.nextLsn → (replaceOp st pid old new).2.logMap l = st.logMap l) := by
  refine ⟨?_, ?_, ?_, ?_, fun l hl => ?_, ?_, ?_, ?_, ?_, fun l hl => ?_⟩
  all_goals first
    | simp [linkOp, replaceOp, h, hne, hl]
    | simp [linkOp, replaceOp, h, hne]

/-- Concrete state used to witness the CAS-failure theorem. -/
def c7state : PCState Nat :=
  { emptyPC Nat with
    table := fun q => if q = 0 then some [CacheEntry.Flush 0 0] else none
    nextLsn := 1 }

theorem claim7_witness :
    (linkOp c7state 0 [] 7).1 = .error (some [CacheEntry.Flush 0 0]) ∧
    (linkOp c7state 0 [] 7).2.table = c7state.table ∧
    (linkOp c7state 0 [] 7).2.saEvents = c7state.saEvents ∧
    (linkOp c7state 0 [] 7).2.logMap 1 = some .zeroedData ∧
    (linkOp c7state 0 [] 7).2.logMap 0 = c7state.logMap 0 ∧
    (replaceOp c7state 0 [] 7).1 = .error (some [CacheEntry.Flush 0 0]) ∧
    (replaceOp c7state 0 [] 7).2.logMap 1 = some .zeroedData := by
  have h := claim7_cas_failure_aborts c7state 0 [] 7 [CacheEntry.Flush 0 0]
    rfl (by decide)
  exact ⟨h.1, h.2.1, h.2.2.1, h.2.2.2.1, h.2.2.2.2.1 0 (by decide),
    h.2.2.2.2.2.1, h.2.2.2.2.2.2.2.2.1⟩

/-- State of a log reservation (reservation.rs): the flushed flag and the
payload length (all `flush` and `Drop` inspect of the payload is whether it
is empty). -/
structure ResState where
  flushed : Bool
  dataLen : Nat
  deriving DecidableEq

/-- Embedding of `Reservation::flush` (reservation.rs line 52): `none` is the
panic taken when the reservation was already flushed; otherwise the flag is
set.  The valid/zeroing distinction does not touch the flag, so it is dropped
here.  The result also counts this one execution of flush. -/
def flushRes (r : ResState) : Option (ResState × Nat) :=
  if r.flushed then none else some ({ r with flushed := true }, 1)

/-- Embedding of `Drop for Reservation` (reservation.rs line 19): flush runs
exactly when the payload is non-empty and the flag is unset. -/
def dropRes (r : ResState) : Option (ResState × Nat) :=
  if !r.flushed && r.dataLen != 0 then flushRes r else some (r, 0)

/-- Lifecycles of a Reservation reachable through the public interface:
`complete` and `abort` consume the reservation by value (their bodies end by
dropping the consumed value), so a caller either resolves it exactly once and
the drop glue runs afterwards, or never resolves it and only Drop runs. -/
inductive ResLife where
  | justDrop
  | completeThenDrop
  | abortThenDrop
  deriving DecidableEq

/-- Run one lifecycle from a fresh reservation, adding up how many times
`flush` executes.  A fresh reservation starts with the flushed flag unset;
modelled from the spec (section 4.1): `reserve` returns an unresolved
reservation (its constructor lives in the io-buffer module outside src/).
`none` means the panic branch of `flush` fired. -/
def runResLife (dataLen : Nat) : ResLife → Option (ResState × Nat)
  | .justDrop => dropRes ⟨false, dataLen⟩
  | .completeThenDrop =>
    match flushRes ⟨false, dataLen⟩ with
    | none => none
    | some (r, a) =>
      match dropRes r with
      | none => none
      | some (r2, b) => some (r2, a + b)
  | .abortThenDrop =>
    match flushRes ⟨false, dataLen⟩ with
    | none => none
    | some (r, a) =>
      match dropRes r with
      | none => none
      | some (r2, b) => some (r2, a + b)

/-- C10: every lifecycle of a reservation that the public interface permits
resolves it at most once and never reaches the panic branch of
`Reservation::flush`; a lifecycle that goes through `complete` or `abort`
runs flush exactly once and ends with the flag set. -/
theorem claim10_reservation_resolved_once (d : Nat) (lc : ResLife) :
    ∃ r n, runResLife d lc = some (r, n) ∧ n ≤ 1 ∧
      (lc ≠ .justDrop → n = 1 ∧ r.flushed = true) := by
  cases lc <;>
    by_cases hd : d = 0 <;>
      simp [runResLife, dropRes, flushRes, hd] <;>
        exact ⟨_, _, ⟨rfl, rfl⟩, by simp⟩

/-- Events of the SA-before-complete ordering (spec section 5), tagged with
the lsn of the reservation they concern. -/
inductive REvent where
  | reserveE (lsn : Nat)
  | markLinkE (lsn : Nat)
  | markReplaceE (lsn : Nat)
  | completeE (lsn : Nat)
  | abortE (lsn : Nat)
  deriving DecidableEq

/-- Whether some event of `pre` is a mark_link or mark_replace for lsn `n`. -/
def hasMarkBefore (pre : List REvent) (n : Nat) : Bool :=
  pre.any (fun e => e = .markLinkE n || e = .markReplaceE n)

/-- An event trace satisfies the SA-before-complete ordering when every
completeE is preceded (strictly earlier in the trace) by a markLinkE or
markReplaceE carrying the same reservation lsn; `pre` accumulates the events
already seen. -/
def marksBeforeComplete (pre : List REvent) : List REvent → Bool
  | [] => true
  | e :: rest =>
    (match e with
     | .completeE n => hasMarkBefore pre n
     | _ => true) && marksBeforeComplete (pre ++ [e]) rest

/-- Call skeleton of `PageCache::allocate` (page_cache.rs lines 193-204): the
Alloc update goes through `log.write`; modelled from the spec (section 4.3):
write = reserve followed directly by complete, with no segment-accountant
call in between. -/
def allocTrace (n : Nat) : List REvent := [.reserveE n, .completeE n]

/-- Call skeleton of `PageCache::free` on a present pid (page_cache.rs lines
224-246): reserve, mark_replace, complete. -/
def freeTrace (n : Nat) : List REvent :=
  [.reserveE n, .markReplaceE n, .completeE n]

/-- Call skeleton of a successful `link` (page_cache.rs lines 629-659):
reserve, mark_link, the events of the opportunistic cleaning rewrite, then
complete. -/
def linkSuccTrace (n : Nat) (clean : List REvent) : List REvent :=
  [.reserveE n, .markLinkE n] ++ clean ++ [.completeE n]

/-- Call skeleton of a `link` whose CAS failed (page_cache.rs line 638). -/
def linkFailTrace (n : Nat) : List REvent := [.reserveE n, .abortE n]

/-- Call skeleton of a successful `replace` (page_cache.rs lines 560-595). -/
def replaceSuccTrace (n : Nat) (clean : List REvent) : List REvent :=
  [.reserveE n, .markReplaceE n] ++ clean ++ [.completeE n]

/-- Call skeleton of a `replace` whose CAS failed (page_cache.rs line 594). -/
def replaceFailTrace (n : Nat) : List REvent := [.reserveE n, .abortE n]

theorem marksBeforeComplete_append (t1 t2 : List REvent) :
    ∀ pre, marksBeforeComplete pre (t1 ++ t2) =
      (marksBeforeComplete pre t1 && marksBeforeComplete (pre ++ t1) t2) := by
  induction t1 with
  | nil => intro pre; simp [marksBeforeComplete]
  | cons e t1 ih =>
    intro pre
    simp only [List.cons_append, marksBeforeComplete, List.append_eq, ih,
      Bool.and_assoc, List.append_assoc, List.singleton_append,
      List.nil_append]

theorem marksBeforeComplete_mono (t : List REvent) :
    ∀ pre pre0, marksBeforeComplete pre t = true →
      marksBeforeComplete (pre0 ++ pre) t = true := by
  induction t with
  | nil => intro pre pre0 _; rfl
  | cons e t ih =>
    intro pre pre0 h
    simp only [marksBeforeComplete, Bool.and_eq_true] at h ⊢
    refine ⟨?_, ?_⟩
    · cases e <;> simp_all [hasMarkBefore, List.any_append]
    · have := ih (pre ++ [e]) pre0 h.2
      simpa [List.append_assoc] using this

/-- C2 (amended): for every logged update written by free, by a successful
link and by a successful replace, the segment accountant's mark_link or
mark_replace for that reservation is invoked strictly before
reservation.complete, whatever events the opportunistic cleaning rewrite
contributes in between (provided that rewrite itself is well ordered); failed
link/replace never complete at all.  Alloc updates are excluded: allocate
writes through log.write with no mark at all (see the counterexample). -/
theorem claim2_sa_before_complete (n : Nat) (clean : List REvent)
    (hclean : marksBeforeComplete [] clean = true) :
    marksBeforeComplete [] (freeTrace n) = true ∧
    marksBeforeComplete [] (linkSuccTrace n clean) = true ∧
    marksBeforeComplete [] (replaceSuccTrace n clean) = true ∧
    marksBeforeComplete [] (linkFailTrace n) = true ∧
    marksBeforeComplete [] (replaceFailTrace n) = true := by
  have hmono : ∀ pre0, marksBeforeComplete pre0 clean = true := by
    intro pre0
    simpa using marksBeforeComplete_mono clean [] pre0 hclean
  refine ⟨?_, ?_, ?_, ?_, ?_⟩
  · simp [freeTrace, marksBeforeComplete, hasMarkBefore]
  · simp [linkSuccTrace, marksBeforeComplete_append, marksBeforeComplete,
      hasMarkBefore, hmono, List.any_append]
  · simp [replaceSuccTrace, marksBeforeComplete_append, marksBeforeComplete,
      hasMarkBefore, hmono, List.any_append]
  · simp [linkFailTrace, marksBeforeComplete]
  · simp [replaceFailTrace, marksBeforeComplete]

theorem claim2_witness :
    marksBeforeComplete [] (freeTrace 0) = true ∧
    marksBeforeComplete [] (linkSuccTrace 0 []) = true ∧
    marksBeforeComplete [] (replaceSuccTrace 0 []) = true ∧
    marksBeforeComplete [] (linkFailTrace 0) = true ∧
    marksBeforeComplete [] (replaceFailTrace 0) = true :=
  claim2_sa_before_complete 0 [] (by decide)

/-- C2 counterexample: the Alloc update written by `allocate` completes its
reservation without any prior mark_link or mark_replace, so the claim as
stated (covering every logged update, Alloc included) fails. -/
theorem claim2_counterexample :
    marksBeforeComplete [] (allocTrace 0) = false := by decide

/-- Result of `read_message` as consumed by `Iter::next` (iterator.rs lines
69-88): the source matches Ok(Flush), Ok(Zeroed) and a catch-all arm for
Ok(Failed), Ok(Corrupted) and Err; the catch-all is `failed` here. -/
inductive LogRead where
  | flush (lsn : Nat) (buf : List Nat) (on_disk_len : Nat)
  | zeroed (on_disk_len : Nat)
  | failed
  deriving DecidableEq

/-- Compile-time log layout constants (SEG_HEADER_LEN, SEG_TRAILER_LEN,
MSG_HEADER_LEN, declared in the log module outside src/) together with the
segment length carried by the iterator. -/
structure IterCfg where
  segment_len : Nat
  SEG_HEADER_LEN : Nat
  SEG_TRAILER_LEN : Nat
  MSG_HEADER_LEN : Nat
  deriving DecidableEq

/-- The backing file, abstracted: what read_segment_header,
read_segment_trailer and read_message return at each offset.  `none` for the
header/trailer stands for an Err result; the trailer carries (ok, lsn). -/
structure Disk where
  readHeader : Nat → Option Nat
  readTrailer : Nat → Option (Bool × Nat)
  readMessage : Nat → LogRead

/-- Mutable state of `Iter` (iterator.rs lines 5-14); the remaining segment
iterator is a list of (lsn, lid) pairs. -/
structure IterState where
  segment_iter : List (Nat × Nat)
  segment_base : Option Nat
  max_lsn : Nat
  cur_lsn : Nat
  trailer : Option Nat
  deriving DecidableEq

/-- Embedding of `valid_entry_offset` (iterator.rs line 143). -/
def valid_entry_offset (cfg : IterCfg) (lid : Nat) : Bool :=
  let seg_start := lid / cfg.segment_len * cfg.segment_len
  let max_lid := seg_start + cfg.segment_len - cfg.SEG_TRAILER_LEN -
    cfg.MSG_HEADER_LEN
  let min_lid := seg_start + cfg.SEG_HEADER_LEN
  min_lid ≤ lid && lid ≤ max_lid

/-- Outcome of `Iter::read_segment` (iterator.rs line 97): success with the
updated state, an Err (torn segment header), or a failed assert. -/
inductive ReadSegRes where
  | ok (s : IterState)
  | err
  | panicked
  deriving DecidableEq

/-- Embedding of `Iter::read_segment` (iterator.rs lines 97-140): check the
caller assert, read the segment header (Err propagates), check alignment
asserts, reject a header lsn mismatch as torn, then read the trailer and
record it only when it is ok and carries the expected trailer lsn. -/
def read_segment (cfg : IterCfg) (disk : Disk) (s : IterState) (lsn : Nat)
    (offset : Nat) : ReadSegRes :=
  if ¬ (s.cur_lsn ≤ lsn + cfg.segment_len) then .panicked
  else
    match disk.readHeader offset with
    | none => .err
    | some hlsn =>
      if ¬ (offset % cfg.segment_len = 0) then .panicked
      else if ¬ (hlsn % cfg.segment_len = 0) then .panicked
      else if hlsn ≠ lsn then .err
      else
        let trailer_offset := offset + cfg.segment_len - cfg.SEG_TRAILER_LEN
        let trailer_lsn := hlsn + cfg.segment_len - cfg.SEG_TRAILER_LEN
        let t : Option Nat :=
          match disk.readTrailer trailer_offset with
          | some (ok, tlsn) =>
            if ok && tlsn = trailer_lsn then some tlsn else none
          | none => none
        .ok { s with
          trailer := t
          cur_lsn := hlsn + cfg.SEG_HEADER_LEN
          segment_base := some offset }

/-- Outcome of one iteration of the loop in `Iter::next` (iterator.rs lines
23-90): the iterator returns None, yields an item, goes around the loop again
(the `continue` and the fall-through after a zeroed message), or hits an
assert. -/
inductive StepRes where
  | stop
  | yield (item : Nat × Nat × List Nat) (s : IterState)
  | cont (s : IterState)
  | panicked
  deriving DecidableEq

/-- The part of the loop body after a segment is in hand (iterator.rs lines
49-89): check cur_lsn against max_lsn, compute the file offset of the next
message, check it against max_lsn, read the message and dispatch: flush
yields and strides by MSG_HEADER_LEN + on_disk_len, zeroed strides by
on_disk_len, and a failed read stops a torn segment or abandons a whole
one. -/
def iter_message_step (cfg : IterCfg) (disk : Disk) (s : IterState) :
    StepRes :=
  if s.max_lsn < s.cur_lsn then .stop
  else
    match s.segment_base with
    | none => .panicked
    | some base =>
      let lid := base + s.cur_lsn % cfg.segment_len
      if s.max_lsn ≤ lid then .stop
      else
        match disk.readMessage lid with
        | .flush lsn buf on_disk_len =>
          .yield (lsn, lid, buf)
            { s with cur_lsn := s.cur_lsn + (cfg.MSG_HEADER_LEN + on_disk_len) }
        | .zeroed on_disk_len =>
          .cont { s with cur_lsn := s.cur_lsn + on_disk_len }
        | .failed =>
          if s.trailer = none then .stop
          else .cont { s with segment_base := none, trailer := none }

/-- One full iteration of the loop in `Iter::next` (iterator.rs lines 23-90):
stop at the end of a torn segment, otherwise load the next segment when none
is in hand or the cursor ran off the entry-offset range, then process one
message. -/
def iter_step (cfg : IterCfg) (disk : Disk) (s : IterState) : StepRes :=
  let at_end := ¬ valid_entry_offset cfg s.cur_lsn
  if s.trailer = none ∧ at_end then .stop
  else if s.segment_base = none ∨ at_end then
    match s.segment_iter with
    | [] => .stop
    | (next_lsn, next_lid) :: rest =>
      if ¬ (s.cur_lsn ≤ next_lsn + cfg.segment_len) then .panicked
      else
        match read_segment cfg disk { s with segment_iter := rest } next_lsn
            next_lid with
        | .panicked => .panicked
        | .err => .stop
        | .ok s2 => iter_message_step cfg disk s2
  else iter_message_step cfg disk s

/-- C3: during log iteration, (1) a read failure inside a whole segment (one
with a recorded trailer) makes the iterator abandon the segment, clearing
segment_base and trailer so that the next loop iteration pulls the next
segment; (2) inside a torn segment (no recorded trailer) the first read
failure returns None for the whole iteration; (3) reaching the end of the
entry-offset range of a torn segment also returns None; (4) with the segment
abandoned, the next iteration draws from the segment iterator and stops only
when no segment is left; (5) read_segment records a trailer exactly when the
trailer read is ok and carries the expected trailer lsn. -/
theorem claim3_torn_segment_policy (cfg : IterCfg) (disk : Disk)
    (s : IterState) (base : Nat) :
    (∀ t, s.trailer = some t → s.segment_base = some base →
      valid_entry_offset cfg s.cur_lsn = true →
      s.cur_lsn ≤ s.max_lsn →
      base + s.cur_lsn % cfg.segment_len < s.max_lsn →
      disk.readMessage (base + s.cur_lsn % cfg.segment_len) = .failed →
      iter_step cfg disk s =
        .cont { s with segment_base := none, trailer := none }) ∧
    (s.trailer = none → s.segment_base = some base →
      valid_entry_offset cfg s.cur_lsn = true →
      s.cur_lsn ≤ s.max_lsn →
      base + s.cur_lsn % cfg.segment_len < s.max_lsn →
      disk.readMessage (base + s.cur_lsn % cfg.segment_len) = .failed →
      iter_step cfg disk s = .stop) ∧
    (s.trailer = none → valid_entry_offset cfg s.cur_lsn = false →
      iter_step cfg disk s = .stop) ∧
    (s.segment_base = none → valid_entry_offset cfg s.cur_lsn = true →
      s.segment_iter = [] → iter_step cfg disk s = .stop) ∧
    (∀ lsn offset hlsn ok tlsn, s.cur_lsn ≤ lsn + cfg.segment_len →
      disk.readHeader offset = some hlsn →
      offset % cfg.segment_len = 0 → hlsn % cfg.segment_len = 0 →
      hlsn = lsn →
      disk.readTrailer (offset + cfg.segment_len - cfg.SEG_TRAILER_LEN) =
        some (ok, tlsn) →
      ∃ s2, read_segment cfg disk s lsn offset = .ok s2 ∧
        s2.trailer = (if ok && tlsn = hlsn + cfg.segment_len -
          cfg.SEG_TRAILER_LEN then some tlsn else none) ∧
        s2.segment_base = some offset ∧
        s2.cur_lsn = hlsn + cfg.SEG_HEADER_LEN) := by
  refine ⟨?_, ?_, ?_, ?_, ?_⟩
  · intro t htr hbase hvalid hcur hlid hmsg
    simp [iter_step, iter_message_step, htr, hbase, hvalid, hmsg,
      Nat.not_lt.mpr hcur, Nat.not_le.mpr hlid]
  · intro htr hbase hvalid hcur hlid hmsg
    simp [iter_step, iter_message_step, htr, hbase, hvalid, hmsg,
      Nat.not_lt.mpr hcur, Nat.not_le.mpr hlid]
  · intro htr hvalid
    simp [iter_step, htr, hvalid]
  · intro hbase hvalid hiter
    simp [iter_step, hbase, hvalid, hiter]
  · intro lsn offset hlsn ok tlsn hcur hhead hoff hmod hmatch htrail
    subst hmatch
    have hrs : read_segment cfg disk s hlsn offset =
        .ok { s with
          trailer := if ok && tlsn = hlsn + cfg.segment_len -
            cfg.SEG_TRAILER_LEN then some tlsn else none
          cur_lsn := hlsn + cfg.SEG_HEADER_LEN
          segment_base := some offset } := by
      simp [read_segment, hcur, hhead, hoff, hmod, htrail]
    exact ⟨_, hrs, rfl, rfl, rfl⟩

/-- Config used in the iterator witnesses: 100-byte segments, 18-byte segment
header, 10-byte segment trailer, 17-byte message header (the spec's header
layout crc32+kind+len+lsn). -/
def iterCfgW : IterCfg := ⟨100, 18, 10, 17⟩

/-- Disk whose every message read fails. -/
def diskFailW : Disk :=
  ⟨fun _ => some 0, fun _ => some (true, 90), fun _ => .failed⟩

theorem claim3_witness :
    iter_step iterCfgW diskFailW ⟨[], some 0, 1000, 20, some 90⟩ =
      .cont ⟨[], none, 1000, 20, none⟩ ∧
    iter_step iterCfgW diskFailW ⟨[], some 0, 1000, 20, none⟩ = .stop ∧
    iter_step iterCfgW diskFailW ⟨[], some 0, 1000, 80, none⟩ = .stop ∧
    iter_step iterCfgW diskFailW ⟨[], none, 1000, 20, none⟩ = .stop ∧
    ∃ s2, read_segment iterCfgW diskFailW ⟨[], none, 1000, 20, none⟩ 0 0 =
        .ok s2 ∧
      s2.trailer = some 90 ∧ s2.segment_base = some 0 ∧ s2.cur_lsn = 18 := by
  have h1 := (claim3_torn_segment_policy iterCfgW diskFailW
    ⟨[], some 0, 1000, 20, some 90⟩ 0).1 90 rfl rfl (by decide) (by decide)
    (by decide) rfl
  have h2 := (claim3_torn_segment_policy iterCfgW diskFailW
    ⟨[], some 0, 1000, 20, none⟩ 0).2.1 rfl rfl (by decide) (by decide)
    (by decide) rfl
  have h3 := (claim3_torn_segment_policy iterCfgW diskFailW
    ⟨[], some 0, 1000, 80, none⟩ 0).2.2.1 rfl (by decide)
  have h4 := (claim3_torn_segment_policy iterCfgW diskFailW
    ⟨[], none, 1000, 20, none⟩ 0).2.2.2.1 rfl (by decide) rfl
  have h5 := (claim3_torn_segment_policy iterCfgW diskFailW
    ⟨[], none, 1000, 20, none⟩ 0).2.2.2.2 0 0 0 true 90 (by decide) rfl
    (by decide) (by decide) rfl rfl
  obtain ⟨s2, hs2, htr, hsb, hcl⟩ := h5
  exact ⟨h1, h2, h3, h4, s2, hs2, by simpa using htr, hsb, hcl⟩

/-- C4 (amended): a flush message advances the cursor by MSG_HEADER_LEN +
on_disk_len and yields (lsn, lid, bytes); a zeroed message emits nothing and
advances the cursor by exactly the on_disk_len value carried in
LogRead::Zeroed, without adding MSG_HEADER_LEN. -/
theorem claim4_message_stride (cfg : IterCfg) (disk : Disk) (s : IterState)
    (base : Nat) :
    (∀ lsn buf len, s.segment_base = some base →
      valid_entry_offset cfg s.cur_lsn = true →
      s.cur_lsn ≤ s.max_lsn →
      base + s.cur_lsn % cfg.segment_len < s.max_lsn →
      disk.readMessage (base + s.cur_lsn % cfg.segment_len) =
        .flush lsn buf len →
      iter_step cfg disk s =
        .yield (lsn, base + s.cur_lsn % cfg.segment_len, buf)
          { s with cur_lsn := s.cur_lsn + (cfg.MSG_HEADER_LEN + len) }) ∧
    (∀ len, s.segment_base = some base →
      valid_entry_offset cfg s.cur_lsn = true →
      s.cur_lsn ≤ s.max_lsn →
      base + s.cur_lsn % cfg.segment_len < s.max_lsn →
      disk.readMessage (base + s.cur_lsn % cfg.segment_len) = .zeroed len →
      iter_step cfg disk s = .cont { s with cur_lsn := s.cur_lsn + len }) := by
  constructor
  · intro lsn buf len hbase hvalid hcur hlid hmsg
    simp [iter_step, iter_message_step, hbase, hvalid, hmsg,
      Nat.not_lt.mpr hcur, Nat.not_le.mpr hlid]
  · intro len hbase hvalid hcur hlid hmsg
    simp [iter_step, iter_message_step, hbase, hvalid, hmsg,
      Nat.not_lt.mpr hcur, Nat.not_le.mpr hlid]

/-- Disk that returns one flush message everywhere. -/
def diskFlushW : Disk :=
  ⟨fun _ => some 0, fun _ => some (true, 90), fun _ => .flush 20 [1, 2] 5⟩

/-- Disk that returns a zeroed message everywhere. -/
def diskZeroW : Disk :=
  ⟨fun _ => some 0, fun _ => some (true, 90), fun _ => .zeroed 10⟩

theorem claim4_witness :
    iter_step iterCfgW diskFlushW ⟨[], some 0, 1000, 20, some 90⟩ =
      .yield (20, 20, [1, 2]) ⟨[], some 0, 1000, 42, some 90⟩ ∧
    iter_step iterCfgW diskZeroW ⟨[], some 0, 1000, 20, some 90⟩ =
      .cont ⟨[], some 0, 1000, 30, some 90⟩ :=
  ⟨(claim4_message_stride iterCfgW diskFlushW ⟨[], some 0, 1000, 20, some 90⟩
      0).1 20 [1, 2] 5 rfl (by decide) (by decide) (by decide) rfl,
   (claim4_message_stride iterCfgW diskZeroW ⟨[], some 0, 1000, 20, some 90⟩
      0).2 10 rfl (by decide) (by decide) (by decide) rfl⟩

/-- C4 counterexample: with a 17-byte message header, a zeroed message whose
LogRead carries on_disk_len = 10 advances the cursor from 20 to 30, not to
20 + (17 + 10) = 47 — the claim that the cursor strides by MSG_HEADER_LEN +
on_disk_len for every message read fails on the zeroed arm. -/
theorem claim4_counterexample :
    iter_step iterCfgW diskZeroW ⟨[], some 0, 1000, 20, some 90⟩ =
      .cont ⟨[], some 0, 1000, 30, some 90⟩ ∧
    (30 : Nat) ≠ 20 + (17 + 10) := by decide

/-- The slice of `Snapshot` state that the advance_snapshot update loop
(page_cache.rs lines 769-891) reads or writes when maintaining the page
table, the free list and max_pid; the per-segment live-set bookkeeping is
orthogonal to all three and is omitted. -/
structure SnapSt where
  pt : List (Nat × List (Nat × Nat))
  free : List Nat
  max_pid : Nat
  deriving DecidableEq

/-- Lookup in the snapshot page table (a HashMap in the source; modelled as
an association list, which the free-list computation never orders by). -/
def ptLookup (pt : List (Nat × List (Nat × Nat))) (pid : Nat) :
    Option (List (Nat × Nat)) :=
  (pt.find? (fun kv => kv.1 = pid)).map (fun kv => kv.2)

/-- Removal from the snapshot page table. -/
def ptRemove (pt : List (Nat × List (Nat × Nat))) (pid : Nat) :
    List (Nat × List (Nat × Nat)) :=
  pt.filter (fun kv => kv.1 != pid)

/-- Insertion (with replacement) into the snapshot page table. -/
def ptInsert (pt : List (Nat × List (Nat × Nat))) (pid : Nat)
    (lids : List (Nat × Nat)) : List (Nat × List (Nat × Nat)) :=
  ptRemove pt pid ++ [(pid, lids)]

/-- Push one (lsn, lid) onto an existing page-table entry. -/
def ptAppendLid (pt : List (Nat × List (Nat × Nat))) (pid : Nat)
    (x : Nat × Nat) : List (Nat × List (Nat × Nat)) :=
  pt.map (fun kv => if kv.1 = pid then (kv.1, kv.2 ++ [x]) else kv)

/-- One iteration of the advance_snapshot update-application loop
(page_cache.rs lines 769-891), restricted to the fields of `SnapSt`: the
max_pid bump, then the four Update arms — Append pushes a lid only when the
pid is present in the table, Compact replaces the pid's lid list, Free
removes the pid from the table and pushes it on the free list
unconditionally, and Alloc inserts the pid with no lids and retains it out of
the free list. -/
def snapApply {P : Type} (st : SnapSt) (lsn lid : Nat)
    (pr : LoggedUpdate P) : SnapSt :=
  let st := if st.max_pid ≤ pr.pid then { st with max_pid := pr.pid + 1 }
    else st
  match pr.update with
  | .Append _ =>
    if (ptLookup st.pt pr.pid).isSome then
      { st with pt := ptAppendLid st.pt pr.pid (lsn, lid) }
    else st
  | .Compact _ => { st with pt := ptInsert st.pt pr.pid [(lsn, lid)] }
  | .Free =>
    { st with pt := ptRemove st.pt pr.pid, free := st.free ++ [pr.pid] }
  | .Alloc =>
    { st with
      pt := ptInsert st.pt pr.pid ([] : List (Nat × Nat))
      free := st.free.filter (fun q => q != pr.pid) }

/-- Fold the update loop over the (lsn, lid, update) triples the log iterator
delivers. -/
def snapRun {P : Type} (entries : List (Nat × Nat × LoggedUpdate P))
    (st : SnapSt) : SnapSt :=
  entries.foldl (fun acc e => snapApply acc e.1 e.2.1 e.2.2) st

/-- The free-list finalization at the end of advance_snapshot (page_cache.rs
lines 894-895): an ascending sort followed by a reversal — and nothing
else. -/
def snapFinalizeFree (free : List Nat) : List Nat :=
  (free.insertionSort (· ≤ ·)).reverse

/-- C5 (amended): just before the snapshot is persisted, its free list is
sorted in descending order; no deduplication is performed (see the
counterexample for a log after which it holds duplicates). -/
theorem claim5_free_list_sorted_descending {P : Type}
    (entries : List (Nat × Nat × LoggedUpdate P)) (st0 : SnapSt) :
    List.Sorted (· ≥ ·) (snapFinalizeFree (snapRun entries st0).free) := by
  have h := List.sorted_insertionSort (· ≤ ·) (snapRun entries st0).free
  simpa [snapFinalizeFree, List.Sorted, List.pairwise_reverse, flip,
    Function.flip_def] using h

/-- C5 counterexample: after the log Alloc 0, Alloc 1, Free 0, Free 1,
Free 1 the finalized free list is [1, 1, 0] — neither sorted in ascending
order nor free of duplicates, refuting the claim that the persisted free
list is sorted and deduplicated. -/
theorem claim5_counterexample :
    snapFinalizeFree (snapRun
      ([(0, 0, ⟨0, .Alloc⟩), (1, 1, ⟨1, .Alloc⟩), (2, 2, ⟨0, .Free⟩),
        (3, 3, ⟨1, .Free⟩), (4, 4, ⟨1, .Free⟩)] :
        List (Nat × Nat × LoggedUpdate Nat))
      ⟨[], [], 0⟩).free = [1, 1, 0] ∧
    ¬ List.Sorted (· ≤ ·) [1, 1, 0] ∧ ¬ List.Nodup [1, 1, 0] := by
  refine ⟨by decide, by decide, by decide⟩

/-- Outcome of the consolidation / fix-up decision in `page_in`
(page_cache.rs lines 385-389 and 448-506): the short circuit on a top
MergedResident, the empty-stack return, the consolidation branch, a panic
inside pull, or the fix-up branch together with the value of its condition
`!fetched.is_empty() || fix_up_length >= cache_fixup_threshold`. -/
inductive FixupOut where
  | shortCircuited
  | emptyStack
  | consolidates
  | panicked
  | fixup (attempted : Bool)
  deriving DecidableEq

/-- Which branch `page_in` takes after walking the stack and pulling the
non-resident tail, as a function of the stack, the log and the two
thresholds. -/
def fixup_decision {P : Type} (consThr fixThr : Nat)
    (logMap : Nat → Option (LogData P)) (stack : List (CacheEntry P)) :
    FixupOut :=
  match collectStack stack with
  | .shortCircuit _ => .shortCircuited
  | .done tm mr lids fu =>
    if lids.isEmpty then .emptyStack
    else
      let to_pull := if mr then [] else lids.drop tm.length
      match pullAll logMap to_pull with
      | none => .panicked
      | some fetched =>
        if consThr < lids.length then .consolidates
        else .fixup (!fetched.isEmpty || decide (fixThr ≤ fu))

/-- Whether a cache entry is a MergedResident. -/
def isMergedRes {P : Type} : CacheEntry P → Bool
  | .MergedResident _ _ _ => true
  | _ => false

/-- Whether a cache entry is a plain Resident. -/
def isResident {P : Type} : CacheEntry P → Bool
  | .Resident _ _ _ => true
  | _ => false

/-- Spec-side reading of the code's fix_up_length: the distance from the top
of the stack to the first MergedResident when one exists, and 0 otherwise
(the loop never assigns it when no MergedResident is met). -/
def fixUpLenSpec {P : Type} (stack : List (CacheEntry P)) : Nat :=
  if stack.any isMergedRes then stack.findIdx isMergedRes else 0

/-- Spec-side reading of "some fragment was pulled from the log": no
MergedResident shields the tail and some entry carries no in-memory
fragment. -/
def pulledSpec {P : Type} (stack : List (CacheEntry P)) : Bool :=
  !stack.any isMergedRes && stack.any (fun e => !isResident e)

/-- Fragments the walk of `page_in` accumulates into to_merge from a point
where merged_resident is still false: every Resident fragment up to and
including the first MergedResident. -/
def tmSpec {P : Type} : List (CacheEntry P) → List P
  | [] => []
  | .Resident f _ _ :: rest => f :: tmSpec rest
  | .MergedResident f _ _ :: _ => [f]
  | .PartialFlush _ _ :: rest => tmSpec rest
  | .Flush _ _ :: rest => tmSpec rest

theorem collectGo_true {P : Type} (stack : List (CacheEntry P)) :
    ∀ tm lids fu, lids ≠ [] →
      collectGo stack tm true lids fu =
        .done tm true (lids ++ stack.map entryLL) fu := by
  induction stack with
  | nil => intro tm lids fu _; simp [collectGo]
  | cons e rest ih =>
    intro tm lids fu hne
    have h1 : lids.isEmpty = false := by
      cases lids with
      | nil => exact absurd rfl hne
      | cons a l => rfl
    cases e with
    | Resident f l d =>
      have h2 : collectGo (CacheEntry.Resident f l d :: rest) tm true lids fu
          = collectGo rest tm true (lids ++ [(l, d)]) fu := by
        simp [collectGo]
      rw [h2, ih _ _ _ (by simp)]
      simp [entryLL, List.append_assoc]
    | MergedResident f l d =>
      have h2 : collectGo (CacheEntry.MergedResident f l d :: rest) tm true
          lids fu = collectGo rest tm true (lids ++ [(l, d)]) fu := by
        simp [collectGo, h1]
      rw [h2, ih _ _ _ (by simp)]
      simp [entryLL, List.append_assoc]
    | PartialFlush l d =>
      have h2 : collectGo (CacheEntry.PartialFlush l d :: rest) tm true lids
          fu = collectGo rest tm true (lids ++ [(l, d)]) fu := by
        simp [collectGo]
      rw [h2, ih _ _ _ (by simp)]
      simp [entryLL, List.append_assoc]
    | Flush l d =>
      have h2 : collectGo (CacheEntry.Flush l d :: rest) tm true lids fu
          = collectGo rest tm true (lids ++ [(l, d)]) fu := by
        simp [collectGo]
      rw [h2, ih _ _ _ (by simp)]
      simp [entryLL, List.append_assoc]

theorem collectGo_false {P : Type} (stack : List (CacheEntry P)) :
    ∀ tm lids fu, lids ≠ [] →
      collectGo stack tm false lids fu =
        .done (tm ++ tmSpec stack) (stack.any isMergedRes)
          (lids ++ stack.map entryLL)
          (if stack.any isMergedRes
           then lids.length + stack.findIdx isMergedRes else fu) := by
  induction stack with
  | nil => intro tm lids fu _; simp [collectGo, tmSpec]
  | cons e rest ih =>
    intro tm lids fu hne
    have h1 : lids.isEmpty = false := by
      cases lids with
      | nil => exact absurd rfl hne
      | cons a l => rfl
    cases e with
    | Resident f l d =>
      have h2 : collectGo (CacheEntry.Resident f l d :: rest) tm false lids fu
          = collectGo rest (tm ++ [f]) false (lids ++ [(l, d)]) fu := by
        simp [collectGo]
      rw [h2, ih _ _ _ (by simp)]
      by_cases hm : rest.any isMergedRes = true <;>
        simp [hm, tmSpec, entryLL, isMergedRes, List.findIdx_cons,
          List.append_assoc] <;> omega
    | MergedResident f l d =>
      have h2 : collectGo (CacheEntry.MergedResident f l d :: rest) tm false
          lids fu =
          collectGo rest (tm ++ [f]) true (lids ++ [(l, d)]) lids.length := by
        simp [collectGo, h1]
      rw [h2, collectGo_true rest _ _ _ (by simp)]
      simp [tmSpec, isMergedRes, entryLL, List.append_assoc,
        List.findIdx_cons]
    | PartialFlush l d =>
      have h2 : collectGo (CacheEntry.PartialFlush l d :: rest) tm false lids
          fu = collectGo rest tm false (lids ++ [(l, d)]) fu := by
        simp [collectGo]
      rw [h2, ih _ _ _ (by simp)]
      by_cases hm : rest.any isMergedRes = true <;>
        simp [hm, tmSpec, entryLL, isMergedRes, List.findIdx_cons,
          List.append_assoc] <;> omega
    | Flush l d =>
      have h2 : collectGo (CacheEntry.Flush l d :: rest) tm false lids fu
          = collectGo rest tm false (lids ++ [(l, d)]) fu := by
        simp [collectGo]
      rw [h2, ih _ _ _ (by simp)]
      by_cases hm : rest.any isMergedRes = true <;>
        simp [hm, tmSpec, entryLL, isMergedRes, List.findIdx_cons,
          List.append_assoc] <;> omega

/-- Walking a nonempty stack whose top entry is not a MergedResident yields
the spec-side accumulators. -/
theorem collectStack_eq {P : Type} (e : CacheEntry P)
    (rest : List (CacheEntry P)) (hM : isMergedRes e = false) :
    collectStack (e :: rest) =
      .done (tmSpec (e :: rest)) ((e :: rest).any isMergedRes)
        ((e :: rest).map entryLL)
        (if (e :: rest).any isMergedRes
         then (e :: rest).findIdx isMergedRes else 0) := by
  cases e with
  | Resident f l d =>
    have h2 : collectStack (CacheEntry.Resident f l d :: rest)
        = collectGo rest [f] false [(l, d)] 0 := by
      simp [collectStack, collectGo]
    rw [h2, collectGo_false rest _ _ _ (by simp)]
    by_cases hm : rest.any isMergedRes = true <;>
      simp [hm, tmSpec, entryLL, isMergedRes, List.findIdx_cons,
        List.append_assoc] <;> omega
  | MergedResident f l d => simp [isMergedRes] at hM
  | PartialFlush l d =>
    have h2 : collectStack (CacheEntry.PartialFlush l d :: rest)
        = collectGo rest [] false [(l, d)] 0 := by
      simp [collectStack, collectGo]
    rw [h2, collectGo_false rest _ _ _ (by simp)]
    by_cases hm : rest.any isMergedRes = true <;>
      simp [hm, tmSpec, entryLL, isMergedRes, List.findIdx_cons,
        List.append_assoc] <;> omega
  | Flush l d =>
    have h2 : collectStack (CacheEntry.Flush l d :: rest)
        = collectGo rest [] false [(l, d)] 0 := by
      simp [collectStack, collectGo]
    rw [h2, collectGo_false rest _ _ _ (by simp)]
    by_cases hm : rest.any isMergedRes = true <;>
      simp [hm, tmSpec, entryLL, isMergedRes, List.findIdx_cons,
        List.append_assoc] <;> omega

theorem pullAll_length {P : Type} (logMap : Nat → Option (LogData P)) :
    ∀ l fs, pullAll logMap l = some fs → fs.length = l.length := by
  intro l
  induction l with
  | nil => intro fs h; simp [pullAll] at h; simp [h.symm]
  | cons p rest ih =>
    intro fs h
    simp only [pullAll] at h
    cases hp : pullFrag logMap p.1 p.2 with
    | none => rw [hp] at h; exact absurd h (by simp)
    | some f =>
      rw [hp] at h
      cases hr : pullAll logMap rest with
      | none => rw [hr] at h; exact absurd h (by simp)
      | some fs2 =>
        rw [hr] at h
        cases h
        simp [ih fs2 hr]

theorem tmSpec_length_no_merged {P : Type} (stack : List (CacheEntry P))
    (h : stack.any isMergedRes = false) :
    (tmSpec stack).length = stack.countP isResident := by
  induction stack with
  | nil => simp [tmSpec]
  | cons e rest ih =>
    simp only [List.any_cons, Bool.or_eq_false_iff] at h
    cases e with
    | Resident f l d =>
      simp [tmSpec, List.countP_cons, isResident, ih h.2]
    | MergedResident f l d => simp [isMergedRes] at h
    | PartialFlush l d =>
      simp [tmSpec, List.countP_cons, isResident, ih h.2]
    | Flush l d =>
      simp [tmSpec, List.countP_cons, isResident, ih h.2]

theorem countP_lt_iff_any_not {P : Type} (l : List (CacheEntry P)) :
    l.countP isResident < l.length ↔
      l.any (fun x => !isResident x) = true := by
  constructor
  · intro hlt
    by_contra hany
    have hall : ∀ a ∈ l, isResident a = true := by
      intro a ha
      by_contra hres
      have hres2 : isResident a = false := by
        cases hq : isResident a
        · rfl
        · exact absurd hq hres
      exact hany (List.any_eq_true.mpr ⟨a, ha, by simp [hres2]⟩)
    rw [List.countP_eq_length.mpr hall] at hlt
    exact lt_irrefl _ hlt
  · intro hany
    rcases List.any_eq_true.mp hany with ⟨a, ha, hna⟩
    rcases Nat.lt_or_ge (l.countP isResident) l.length with hlt | hge
    · exact hlt
    · have heq : l.countP isResident = l.length :=
        Nat.le_antisymm (List.countP_le_length _) hge
      have := List.countP_eq_length.mp heq a ha
      simp [this] at hna

theorem claim6_aux {P : Type} (consThr fixThr : Nat)
    (logMap : Nat → Option (LogData P)) (e : CacheEntry P)
    (rest : List (CacheEntry P)) (hM : isMergedRes e = false) (b : Bool)
    (h : fixup_decision consThr fixThr logMap (e :: rest) = .fixup b) :
    b = true ↔ (pulledSpec (e :: rest) = true ∨
      fixThr ≤ fixUpLenSpec (e :: rest)) := by
  have hcs := collectStack_eq e rest hM
  by_cases hmr : (e :: rest).any isMergedRes = true
  · have hval : fixup_decision consThr fixThr logMap (e :: rest) =
        (if consThr < rest.length + 1 then .consolidates
         else .fixup (decide (fixThr ≤ (e :: rest).findIdx isMergedRes))) := by
      unfold fixup_decision
      rw [hcs]
      simp [hmr, pullAll]
    rw [hval] at h
    by_cases hcons : consThr < rest.length + 1
    · rw [if_pos hcons] at h; exact absurd h (by simp)
    · rw [if_neg hcons] at h
      have hb : b = decide (fixThr ≤ (e :: rest).findIdx isMergedRes) := by
        cases h; rfl
      subst hb
      simp [pulledSpec, hmr, fixUpLenSpec, decide_eq_true_eq]
  · have hmr2 : (e :: rest).any isMergedRes = false := by
      cases hq : (e :: rest).any isMergedRes
      · rfl
      · exact absurd hq hmr
    cases hp : pullAll logMap ((entryLL e :: rest.map entryLL).drop
        (tmSpec (e :: rest)).length) with
    | none =>
      have hval : fixup_decision consThr fixThr logMap (e :: rest) =
          .panicked := by
        unfold fixup_decision
        rw [hcs]
        simp [hmr2, hp]
      rw [hval] at h
      exact absurd h (by simp)
    | some fetched =>
      have hval : fixup_decision consThr fixThr logMap (e :: rest) =
          (if consThr < rest.length + 1 then .consolidates
           else .fixup (!fetched.isEmpty || decide (fixThr = 0))) := by
        unfold fixup_decision
        rw [hcs]
        simp [hmr2, hp]
      rw [hval] at h
      by_cases hcons : consThr < rest.length + 1
      · rw [if_pos hcons] at h; exact absurd h (by simp)
      · rw [if_neg hcons] at h
        have hb : b = (!fetched.isEmpty || decide (fixThr = 0)) := by
          cases h; rfl
        subst hb
        have hflen : fetched.length =
            (rest.length + 1) - (e :: rest).countP isResident := by
          have h1 := pullAll_length logMap _ _ hp
          have h2 := tmSpec_length_no_merged (e :: rest) hmr2
          simp only [List.length_drop, List.length_cons,
            List.length_map] at h1
          rw [h1, h2]
        have hcle := List.countP_le_length (p := isResident) (l := e :: rest)
        have hkey : (!fetched.isEmpty) = true ↔
            (e :: rest).countP isResident < (e :: rest).length := by
          have hfl : fetched.isEmpty = (fetched.length == 0) := by
            cases fetched <;> rfl
          simp only [List.length_cons] at hcle
          rw [hfl]
          simp only [Bool.not_eq_true', beq_eq_false_iff_ne, ne_eq,
            List.length_cons]
          omega
        have hfz : fixUpLenSpec (e :: rest) = 0 := by
          simp [fixUpLenSpec, hmr2]
        have hps : pulledSpec (e :: rest) =
            (e :: rest).any (fun x => !isResident x) := by
          simp [pulledSpec, hmr2]
        rw [hps, hfz]
        simp only [Bool.or_eq_true, decide_eq_true_eq]
        rw [hkey, countP_lt_iff_any_not]
        exact or_congr Iff.rfl (by omega)

/-- C6 (amended): when `get` neither short-circuits on a top MergedResident
nor takes the consolidation branch, the stack fix-up rewrite is attempted
exactly when some fragment was pulled from the log OR the distance from the
top of the stack to the first MergedResident is greater than or EQUAL to
cache_fixup_threshold: the source compares with >=, so, contrary to the
claim's strict "exceeds", the rewrite also fires when the distance equals the
threshold. -/
theorem claim6_fixup_condition {P : Type} (consThr fixThr : Nat)
    (logMap : Nat → Option (LogData P)) (stack : List (CacheEntry P))
    (b : Bool) (h : fixup_decision consThr fixThr logMap stack = .fixup b) :
    b = true ↔ (pulledSpec stack = true ∨ fixThr ≤ fixUpLenSpec stack) := by
  cases stack with
  | nil => simp [fixup_decision, collectStack, collectGo] at h
  | cons e rest =>
    cases he : e with
    | MergedResident f l d =>
      subst he
      simp [fixup_decision, collectStack, collectGo] at h
    | Resident f l d =>
      subst he
      exact claim6_aux consThr fixThr logMap (CacheEntry.Resident f l d)
        rest rfl b h
    | PartialFlush l d =>
      subst he
      exact claim6_aux consThr fixThr logMap (CacheEntry.PartialFlush l d)
        rest rfl b h
    | Flush l d =>
      subst he
      exact claim6_aux consThr fixThr logMap (CacheEntry.Flush l d)
        rest rfl b h

/-- Stack used in the C6 counterexample and witness: one Resident on top of
one MergedResident, distance 1 from the top to the MergedResident. -/
def c6stack : List (CacheEntry Nat) :=
  [CacheEntry.Resident 7 1 1, CacheEntry.MergedResident 8 0 0]

/-- C6 counterexample: with cache_fixup_threshold = 1, nothing pulled from
the log and the first MergedResident at distance exactly 1, the code attempts
the fix-up rewrite (condition true) although the distance does not EXCEED the
threshold — refuting the claim that no rewrite happens in that case. -/
theorem claim6_counterexample :
    fixup_decision 10 1 (fun _ => none) c6stack = .fixup true ∧
    pulledSpec c6stack = false ∧ fixUpLenSpec c6stack = 1 ∧
    ¬ (1 : Nat) < 1 := by decide

theorem claim6_witness :
    true = true ↔ (pulledSpec c6stack = true ∨ 1 ≤ fixUpLenSpec c6stack) :=
  claim6_fixup_condition 10 1 (fun _ => none) c6stack true (by decide)

/-- What `page_out` makes of a non-bottom stack entry (page_cache.rs lines
313-324): Resident, MergedResident and PartialFlush become PartialFlush at
the same log location; a Flush in the middle of the stack is the panic. -/
def pageOutMid {P : Type} : CacheEntry P → Option (CacheEntry P)
  | .PartialFlush l d => some (.PartialFlush l d)
  | .MergedResident _ l d => some (.PartialFlush l d)
  | .Resident _ l d => some (.PartialFlush l d)
  | .Flush _ _ => none

/-- What `page_out` makes of the bottom entry (page_cache.rs lines 292-305):
MergedResident, Resident and Flush become Flush at the same location (after
make_stable, which has no effect on this state); a PartialFlush at the bottom
is the panic. -/
def pageOutLast {P : Type} : CacheEntry P → Option (CacheEntry P)
  | .MergedResident _ l d => some (.Flush l d)
  | .Resident _ l d => some (.Flush l d)
  | .Flush l d => some (.Flush l d)
  | .PartialFlush _ _ => none

/-- Apply `pageOutMid` across the non-bottom entries, failing on the first
panic. -/
def mapMid {P : Type} : List (CacheEntry P) → Option (List (CacheEntry P))
  | [] => some []
  | e :: rest =>
    match pageOutMid e, mapMid rest with
    | some e2, some rest2 => some (e2 :: rest2)
    | _, _ => none

/-- Embedding of the per-pid body of `page_out` (page_cache.rs lines
277-336): an empty stack is left alone (the source returns early after the
pop yields nothing); otherwise every entry above the bottom becomes a
PartialFlush and the bottom becomes a Flush.  `none` is one of the two
panics.  The concluding CAS always succeeds in this sequential model. -/
def page_out_stack {P : Type} (stack : List (CacheEntry P)) :
    Option (List (CacheEntry P)) :=
  match stack.getLast? with
  | none => some stack
  | some last =>
    match pageOutLast last, mapMid stack.dropLast with
    | some newLast, some mid => some (mid ++ [newLast])
    | _, _ => none

/-- page_out of a single pid on the page-cache state. -/
def pageOutOp {P : Type} (st : PCState P) (pid : Nat) : Option (PCState P) :=
  match st.table pid with
  | none => some st
  | some stack =>
    match page_out_stack stack with
    | none => none
    | some newStack =>
      some { st with
        table := fun q => if q = pid then some newStack else st.table q }

/-- One operation of a single-pid history: a link or replace performed
against the current head (so its CAS succeeds), or an LRU-driven page_out of
the pid. -/
inductive Op1 (P : Type) where
  | link (f : P)
  | replace (f : P)
  | pageOut
  deriving DecidableEq

/-- Run a single-pid history, feeding each link/replace the stack it will
CAS against; `none` marks a panic or an unexpected failure (the invariant
theorem shows the run always succeeds from the allocated state). -/
def run1 {P : Type} [DecidableEq P] (pid : Nat) :
    List (Op1 P) → PCState P → Option (PCState P)
  | [], st => some st
  | .link f :: rest, st =>
    match st.table pid with
    | none => none
    | some stack =>
      match linkOp st pid stack f with
      | (.ok _, st2) => run1 pid rest st2
      | (_, _) => none
  | .replace f :: rest, st =>
    match st.table pid with
    | none => none
    | some stack =>
      match replaceOp st pid stack f with
      | (.ok _, st2) => run1 pid rest st2
      | (_, _) => none
  | .pageOut :: rest, st =>
    match pageOutOp st pid with
    | none => none
    | some st2 => run1 pid rest st2

/-- Effect of one operation on the oldest-first fragment history: a link
appends its fragment, a replace restarts the history, a page_out moves
fragments to disk without changing them. -/
def histStep {P : Type} (h : List P) : Op1 P → List P
  | .link f => h ++ [f]
  | .replace f => [f]
  | .pageOut => h

/-- The oldest-first sequence of fragments successfully CAS'd since the last
successful replace. -/
def frag_hist {P : Type} (ops : List (Op1 P)) : List P :=
  ops.foldl histStep []

/-- Effect of one operation on "the stack is the bare MergedResident of the
final replace": only a trailing replace leaves that state. -/
def bareStep {P : Type} (_bare : Option P) : Op1 P → Option P
  | .link _ => none
  | .replace f => some f
  | .pageOut => none

/-- The fragment of the final operation when that operation is a replace. -/
def lastBare {P : Type} (ops : List (Op1 P)) : Option P :=
  match ops.getLast? with
  | some (.replace f) => some f
  | _ => none

/-- Every entry is a Resident. -/
def allRes {P : Type} (l : List (CacheEntry P)) : Prop :=
  ∀ e ∈ l, ∃ f a c, e = CacheEntry.Resident f a c

/-- Every entry is a PartialFlush. -/
def allPF {P : Type} (l : List (CacheEntry P)) : Prop :=
  ∀ e ∈ l, ∃ a c, e = CacheEntry.PartialFlush a c

/-- Shape of the non-Resident bottom of a reachable stack: empty, a single
MergedResident, or PartialFlushes over a single Flush (spec section 3 stack
invariants). -/
inductive TailShape {P : Type} : List (CacheEntry P) → Prop where
  | nil : TailShape []
  | merged (f : P) (a c : Nat) :
      TailShape [CacheEntry.MergedResident f a c]
  | flushed (pfs : List (CacheEntry P)) (a c : Nat) (hpf : allPF pfs) :
      TailShape (pfs ++ [CacheEntry.Flush a c])

/-- Shape of a reachable stack: Residents on top of a TailShape bottom. -/
def StackShape {P : Type} (s : List (CacheEntry P)) : Prop :=
  ∃ res tail, s = res ++ tail ∧ allRes res ∧ TailShape tail

/-- The fragments a stack denotes through the log, newest first: each entry
read back from its (lsn, lid). -/
def stackDenote {P : Type} (logMap : Nat → Option (LogData P))
    (s : List (CacheEntry P)) : Option (List P) :=
  pullAll logMap (s.map entryLL)

/-- The facts about one page's stack that the single-pid machine maintains:
reachable shape, the log denotes the newest-first history, in-memory
fragments agree with the log, and every entry's lsn is below the reservation
counter. -/
structure GoodStack {P : Type} (logMap : Nat → Option (LogData P))
    (nextLsn : Nat) (stack : List (CacheEntry P)) (h : List P) : Prop where
  shape : StackShape stack
  denote : stackDenote logMap stack = some h.reverse
  inmem : ∀ e ∈ stack, ∀ f, entryFrag e = some f →
    pullFrag logMap (entryLL e).1 (entryLL e).2 = some f
  bound : ∀ e ∈ stack, (entryLL e).1 < nextLsn

/-- The stack is the bare MergedResident of a trailing replace exactly when
`bare` says so. -/
def BareRel {P : Type} (stack : List (CacheEntry P)) (bare : Option P) :
    Prop :=
  (∀ f, bare = some f →
    ∃ a c, stack = [CacheEntry.MergedResident f a c]) ∧
  (bare = none → ∀ f a c,
    stack.head? ≠ some (CacheEntry.MergedResident f a c))

/-- Invariant of the single-pid machine. -/
def Inv1 {P : Type} (pid : Nat) (st : PCState P) (h : List P)
    (bare : Option P) : Prop :=
  ∃ stack, st.table pid = some stack ∧
    GoodStack st.logMap st.nextLsn stack h ∧
    (∀ l, st.nextLsn ≤ l → st.logMap l = none) ∧
    BareRel stack bare

theorem pullAll_append {P : Type} (lm : Nat → Option (LogData P))
    (a b : List (Nat × Nat)) :
    pullAll lm (a ++ b) =
      match pullAll lm a, pullAll lm b with
      | some xs, some ys => some (xs ++ ys)
      | _, _ => none := by
  induction a with
  | nil =>
    simp only [List.nil_append, pullAll]
    cases pullAll lm b <;> rfl
  | cons p rest ih =>
    simp only [List.cons_append, pullAll, List.append_eq, ih]
    cases pullFrag lm p.1 p.2 <;>
      cases pullAll lm rest <;>
        cases pullAll lm b <;> rfl

theorem pullFrag_update_ne {P : Type} (lm : Nat → Option (LogData P))
    (n : Nat) (v : Option (LogData P)) (l d : Nat) (h : l ≠ n) :
    pullFrag (fun x => if x = n then v else lm x) l d = pullFrag lm l d := by
  simp [pullFrag, h]

theorem pullAll_update_fresh {P : Type} (lm : Nat → Option (LogData P))
    (n : Nat) (v : Option (LogData P)) :
    ∀ l : List (Nat × Nat), (∀ p ∈ l, p.1 ≠ n) →
      pullAll (fun x => if x = n then v else lm x) l = pullAll lm l := by
  intro l
  induction l with
  | nil => intro _; rfl
  | cons p rest ih =>
    intro hne
    simp only [pullAll,
      pullFrag_update_ne lm n v p.1 p.2 (hne p (by simp)),
      ih (fun q hq => hne q (by simp [hq]))]

theorem denote_of_inmem {P : Type} (lm : Nat → Option (LogData P)) :
    ∀ l : List (CacheEntry P),
      (∀ e ∈ l, (entryFrag e).isSome) →
      (∀ e ∈ l, ∀ f, entryFrag e = some f →
        pullFrag lm (entryLL e).1 (entryLL e).2 = some f) →
      pullAll lm (l.map entryLL) = some (l.filterMap entryFrag) := by
  intro l
  induction l with
  | nil => intro _ _; rfl
  | cons e rest ih =>
    intro hsome hmem
    obtain ⟨f, hf⟩ := Option.isSome_iff_exists.mp (hsome e (by simp))
    have hpull := hmem e (by simp) f hf
    simp only [List.map_cons, pullAll, hpull,
      ih (fun x hx => hsome x (by simp [hx]))
        (fun x hx g hg => hmem x (by simp [hx]) g hg),
      List.filterMap_cons, hf]

theorem tmSpec_nofrag {P : Type} :
    ∀ l : List (CacheEntry P), (∀ e ∈ l, entryFrag e = none) →
      tmSpec l = [] := by
  intro l
  induction l with
  | nil => intro _; rfl
  | cons e rest ih =>
    intro hn
    cases e with
    | Resident f a c =>
      have hc := hn (CacheEntry.Resident f a c) (by simp)
      simp [entryFrag] at hc
    | MergedResident f a c =>
      have hc := hn (CacheEntry.MergedResident f a c) (by simp)
      simp [entryFrag] at hc
    | PartialFlush a c =>
      simpa [tmSpec] using ih (fun x hx => hn x (by simp [hx]))
    | Flush a c =>
      simpa [tmSpec] using ih (fun x hx => hn x (by simp [hx]))

theorem tmSpec_allRes_append {P : Type} :
    ∀ res : List (CacheEntry P), allRes res → ∀ tail,
      tmSpec (res ++ tail) = res.filterMap entryFrag ++ tmSpec tail := by
  intro res
  induction res with
  | nil => intro _ tail; simp
  | cons e rest ih =>
    intro hres tail
    obtain ⟨f, a, c, he⟩ := hres e (by simp)
    subst he
    have hrest : allRes rest := fun x hx => hres x (by simp [hx])
    simp [tmSpec, List.filterMap_cons, entryFrag, ih hrest tail]

theorem any_merged_false {P : Type} (l : List (CacheEntry P))
    (h : ∀ e ∈ l, isMergedRes e = false) : l.any isMergedRes = false := by
  simp only [List.any_eq_false]
  intro e he
  simp [h e he]

theorem mapMid_no_flush {P : Type} :
    ∀ l : List (CacheEntry P),
      (∀ e ∈ l, ∀ a c, e ≠ CacheEntry.Flush a c) →
      mapMid l = some (l.map (fun e =>
        CacheEntry.PartialFlush (entryLL e).1 (entryLL e).2)) := by
  intro l
  induction l with
  | nil => intro _; rfl
  | cons e rest ih =>
    intro hnf
    have hrest := ih (fun x hx => hnf x (by simp [hx]))
    cases e with
    | Resident f a c => simp [mapMid, pageOutMid, hrest, entryLL]
    | MergedResident f a c => simp [mapMid, pageOutMid, hrest, entryLL]
    | PartialFlush a c => simp [mapMid, pageOutMid, hrest, entryLL]
    | Flush a c =>
      have := hnf (CacheEntry.Flush a c) (by simp) a c
      simp at this

theorem page_out_concat {P : Type} (mid : List (CacheEntry P))
    (last : CacheEntry P)
    (hnf : ∀ e ∈ mid, ∀ a c, e ≠ CacheEntry.Flush a c)
    (hlast : ∀ a c, last ≠ CacheEntry.PartialFlush a c) :
    page_out_stack (mid ++ [last]) =
      some ((mid.map (fun e =>
        CacheEntry.PartialFlush (entryLL e).1 (entryLL e).2)) ++
        [CacheEntry.Flush (entryLL last).1 (entryLL last).2]) := by
  unfold page_out_stack
  rw [List.getLast?_concat, List.dropLast_concat, mapMid_no_flush mid hnf]
  cases last with
  | Resident f a c => simp [pageOutLast, entryLL]
  | MergedResident f a c => simp [pageOutLast, entryLL]
  | Flush a c => simp [pageOutLast, entryLL]
  | PartialFlush a c => exact absurd rfl (hlast a c)

theorem page_out_stack_shape {P : Type} (stack : List (CacheEntry P))
    (hs : StackShape stack) :
    ∃ newStack, page_out_stack stack = some newStack ∧
      newStack.map entryLL = stack.map entryLL ∧
      StackShape newStack ∧
      (∀ e ∈ newStack, entryFrag e = none) ∧
      (∀ f a c, newStack.head? ≠ some (CacheEntry.MergedResident f a c)) ∧
      (newStack = [] ↔ stack = []) := by
  obtain ⟨res, tail, hsplit, hres, htail⟩ := hs
  have hresnf : ∀ e ∈ res, ∀ a c, e ≠ CacheEntry.Flush a c := by
    intro e he a c hcontra
    obtain ⟨f, a2, c2, he2⟩ := hres e he
    rw [he2] at hcontra
    exact CacheEntry.noConfusion hcontra
  -- helper applied to every nonempty case
  have main : ∀ (mid : List (CacheEntry P)) (last : CacheEntry P),
      (∀ e ∈ mid, ∀ a c, e ≠ CacheEntry.Flush a c) →
      (∀ a c, last ≠ CacheEntry.PartialFlush a c) →
      ∃ newStack, page_out_stack (mid ++ [last]) = some newStack ∧
        newStack.map entryLL = (mid ++ [last]).map entryLL ∧
        StackShape newStack ∧
        (∀ e ∈ newStack, entryFrag e = none) ∧
        (∀ f a c, newStack.head? ≠ some (CacheEntry.MergedResident f a c)) ∧
        (newStack = [] ↔ mid ++ [last] = []) := by
    intro mid last hnf hlast
    have hps := page_out_concat mid last hnf hlast
    refine ⟨List.map (fun e =>
        CacheEntry.PartialFlush (entryLL e).1 (entryLL e).2) mid ++
        [CacheEntry.Flush (entryLL last).1 (entryLL last).2],
      hps, ?_, ?_, ?_, ?_, ?_⟩
    · simp [List.map_map, entryLL, Function.comp]
    · refine ⟨[], List.map (fun e =>
        CacheEntry.PartialFlush (entryLL e).1 (entryLL e).2) mid ++
        [CacheEntry.Flush (entryLL last).1 (entryLL last).2],
        by simp, by intro e he; simp at he, ?_⟩
      exact TailShape.flushed _ _ _ (by
        intro e he
        simp only [List.mem_map] at he
        obtain ⟨x, _, hx⟩ := he
        exact ⟨_, _, hx.symm⟩)
    · intro e he
      simp only [List.mem_append, List.mem_map, List.mem_singleton] at he
      rcases he with ⟨x, _, hx⟩ | hx
      · rw [← hx]; rfl
      · rw [hx]; rfl
    · intro f a c
      cases hm : mid with
      | nil => simp [hm]
      | cons x xs => simp [hm]
    · simp
  cases htail with
  | nil =>
    rcases List.eq_nil_or_concat res with hnil | ⟨r2, a, hcat⟩
    · subst hnil
      simp only [List.append_nil, List.nil_append] at hsplit
      subst hsplit
      exact ⟨[], rfl, rfl, ⟨[], [], rfl, by intro e he; simp at he,
        TailShape.nil⟩, by intro e he; simp at he, by simp, by simp⟩
    · rw [hcat, List.concat_eq_append] at hsplit
      have hlast : ∀ a2 c2, a ≠ CacheEntry.PartialFlush a2 c2 := by
        intro a2 c2 hcontra
        obtain ⟨f, a3, c3, he2⟩ := hres a (by rw [hcat]; simp)
        rw [he2] at hcontra
        exact CacheEntry.noConfusion hcontra
      have hnf : ∀ e ∈ r2, ∀ a2 c2, e ≠ CacheEntry.Flush a2 c2 := by
        intro e he
        exact hresnf e (by rw [hcat]; simp [he])
      rw [List.append_nil] at hsplit
      subst hsplit
      exact main r2 a hnf hlast
  | merged f0 a0 c0 =>
    subst hsplit
    have hlast : ∀ a2 c2,
        CacheEntry.MergedResident f0 a0 c0 ≠ CacheEntry.PartialFlush a2 c2 := by
      intro a2 c2 h
      cases h
    exact main res (CacheEntry.MergedResident f0 a0 c0) hresnf hlast
  | flushed pfs a0 c0 hpf =>
    subst hsplit
    have hnf : ∀ e ∈ res ++ pfs, ∀ a2 c2, e ≠ CacheEntry.Flush a2 c2 := by
      intro e he a2 c2 hcontra
      rcases List.mem_append.mp he with h1 | h1
      · exact hresnf e h1 a2 c2 hcontra
      · obtain ⟨a3, c3, he2⟩ := hpf e h1
        rw [he2] at hcontra
        exact CacheEntry.noConfusion hcontra
    have hlast : ∀ a2 c2,
        (CacheEntry.Flush a0 c0 : CacheEntry P) ≠
          CacheEntry.PartialFlush a2 c2 := by
      intro a2 c2 h
      cases h
    have := main (res ++ pfs) (CacheEntry.Flush a0 c0 : CacheEntry P) hnf
      hlast
    simpa [List.append_assoc] using this

theorem pageOut_pres {P : Type} (pid : Nat) (st : PCState P) (h : List P)
    (bare : Option P) (hinv : Inv1 pid st h bare) :
    ∃ st2, pageOutOp st pid = some st2 ∧ Inv1 pid st2 h none := by
  obtain ⟨stack, htab, hg, hfresh, hbare⟩ := hinv
  obtain ⟨ns, hpos, hmap, hshape, hnof, hhead, hnil⟩ :=
    page_out_stack_shape stack hg.shape
  refine ⟨{ st with
      table := fun q => if q = pid then some ns else st.table q }, ?_, ?_⟩
  · simp [pageOutOp, htab, hpos]
  · refine ⟨ns, by simp, ⟨hshape, ?_, ?_, ?_⟩, hfresh, ?_⟩
    · have hd : stackDenote st.logMap ns = stackDenote st.logMap stack := by
        unfold stackDenote
        rw [hmap]
      exact hd.trans hg.denote
    · intro e he f hf
      rw [hnof e he] at hf
      cases hf
    · intro e he
      have hin : entryLL e ∈ List.map entryLL stack := by
        rw [← hmap]
        exact List.mem_map_of_mem entryLL he
      obtain ⟨e2, he2, heq⟩ := List.mem_map.mp hin
      rw [← heq]
      exact hg.bound e2 he2
    · exact ⟨fun f hf => (nomatch hf), fun _ => hhead⟩

theorem link_pres {P : Type} [DecidableEq P] (pid : Nat) (st : PCState P)
    (h : List P) (bare : Option P) (f : P) (hinv : Inv1 pid st h bare) :
    ∃ stack, st.table pid = some stack ∧
      (linkOp st pid stack f).1 =
        .ok (CacheEntry.Resident f st.nextLsn st.nextLsn :: stack) ∧
      Inv1 pid (linkOp st pid stack f).2 (h ++ [f]) none := by
  obtain ⟨stack, htab, hg, hfresh, hbare⟩ := hinv
  have h2 : (linkOp st pid stack f).2 =
      { st with
        table := fun q => if q = pid then
          some (CacheEntry.Resident f st.nextLsn st.nextLsn :: stack)
          else st.table q
        logMap := fun l => if l = st.nextLsn then
          some (.flushData ⟨pid, if stack.isEmpty then Update.Compact f
            else Update.Append f⟩) else st.logMap l
        nextLsn := st.nextLsn + 1
        saEvents := st.saEvents ++
          [SAEvent.markLink pid st.nextLsn st.nextLsn] } := by
    simp [linkOp, htab]
  have hboundne : ∀ p ∈ stack.map entryLL, p.1 ≠ st.nextLsn := by
    intro p hp
    obtain ⟨e2, he2, heq⟩ := List.mem_map.mp hp
    rw [← heq]
    exact Nat.ne_of_lt (hg.bound e2 he2)
  refine ⟨stack, htab, by simp [linkOp, htab], ?_⟩
  rw [h2]
  refine ⟨CacheEntry.Resident f st.nextLsn st.nextLsn :: stack, by simp,
    ⟨?_, ?_, ?_, ?_⟩, ?_, ?_⟩
  · obtain ⟨res, tail, hsp, hr, ht⟩ := hg.shape
    refine ⟨CacheEntry.Resident f st.nextLsn st.nextLsn :: res, tail,
      by rw [hsp]; rfl, ?_, ht⟩
    intro e he
    rcases List.mem_cons.mp he with rfl | hm
    · exact ⟨f, st.nextLsn, st.nextLsn, rfl⟩
    · exact hr e hm
  · show pullAll _ _ = _
    have hvf : pullFrag (fun l => if l = st.nextLsn then
        some (.flushData ⟨pid, if stack.isEmpty then Update.Compact f
          else Update.Append f⟩) else st.logMap l) st.nextLsn st.nextLsn =
        some f := by
      by_cases hse : stack.isEmpty <;> simp [pullFrag, hse]
    simp only [List.map_cons, entryLL, pullAll, hvf]
    rw [pullAll_update_fresh st.logMap st.nextLsn _ (stack.map entryLL)
      hboundne]
    have hd := hg.denote
    unfold stackDenote at hd
    rw [hd]
    simp [List.reverse_append]
  · intro e he f2 hf2
    rcases List.mem_cons.mp he with rfl | hm
    · simp only [entryFrag] at hf2
      cases hf2
      by_cases hse : stack.isEmpty <;> simp [pullFrag, entryLL, hse]
    · have hne : (entryLL e).1 ≠ st.nextLsn :=
        Nat.ne_of_lt (hg.bound e hm)
      rw [pullFrag_update_ne _ _ _ _ _ hne]
      exact hg.inmem e hm f2 hf2
  · intro e he
    rcases List.mem_cons.mp he with rfl | hm
    · simp [entryLL]
    · exact Nat.lt_succ_of_lt (hg.bound e hm)
  · intro l hl
    have hl2 : st.nextLsn + 1 ≤ l := hl
    have hne : l ≠ st.nextLsn := by omega
    simp only [hne, if_false]
    exact hfresh l (by omega)
  · exact ⟨fun f2 hf2 => (nomatch hf2), fun _ f2 a c => by simp⟩

theorem replace_pres {P : Type} [DecidableEq P] (pid : Nat) (st : PCState P)
    (h : List P) (bare : Option P) (f : P) (hinv : Inv1 pid st h bare) :
    ∃ stack, st.table pid = some stack ∧
      (replaceOp st pid stack f).1 =
        .ok [CacheEntry.MergedResident f st.nextLsn st.nextLsn] ∧
      Inv1 pid (replaceOp st pid stack f).2 [f] (some f) := by
  obtain ⟨stack, htab, hg, hfresh, hbare⟩ := hinv
  have h2 : (replaceOp st pid stack f).2 =
      { st with
        table := fun q => if q = pid then
          some [CacheEntry.MergedResident f st.nextLsn st.nextLsn]
          else st.table q
        logMap := fun l => if l = st.nextLsn then
          some (.flushData ⟨pid, Update.Compact f⟩) else st.logMap l
        nextLsn := st.nextLsn + 1
        saEvents := st.saEvents ++
          [SAEvent.markReplace pid st.nextLsn (lids_from_stack stack)
            st.nextLsn] } := by
    simp [replaceOp, htab]
  refine ⟨stack, htab, by simp [replaceOp, htab], ?_⟩
  rw [h2]
  refine ⟨[CacheEntry.MergedResident f st.nextLsn st.nextLsn], by simp,
    ⟨?_, ?_, ?_, ?_⟩, ?_, ?_⟩
  · exact ⟨[], [CacheEntry.MergedResident f st.nextLsn st.nextLsn], rfl,
      by intro e he; simp at he, TailShape.merged f st.nextLsn st.nextLsn⟩
  · show pullAll _ _ = _
    simp [pullAll, pullFrag, entryLL]
  · intro e he f2 hf2
    rcases List.mem_cons.mp he with rfl | hm
    · simp only [entryFrag] at hf2
      cases hf2
      simp [pullFrag, entryLL]
    · simp at hm
  · intro e he
    rcases List.mem_cons.mp he with rfl | hm
    · simp [entryLL]
    · simp at hm
  · intro l hl
    have hl2 : st.nextLsn + 1 ≤ l := hl
    have hne : l ≠ st.nextLsn := by omega
    simp only [hne, if_false]
    exact hfresh l (by omega)
  · refine ⟨fun f2 hf2 => ?_, fun hn => nomatch hn⟩
    cases hf2
    exact ⟨st.nextLsn, st.nextLsn, rfl⟩

theorem filterMap_allRes_length {P : Type} :
    ∀ res : List (CacheEntry P), allRes res →
      (res.filterMap entryFrag).length = res.length := by
  intro res
  induction res with
  | nil => intro _; rfl
  | cons e rest ih =>
    intro hres
    obtain ⟨f, a, c, he⟩ := hres e (by simp)
    subst he
    simp [List.filterMap_cons, entryFrag,
      ih (fun x hx => hres x (by simp [hx]))]

theorem allRes_any_merged_false {P : Type} (res : List (CacheEntry P))
    (hres : allRes res) : res.any isMergedRes = false := by
  apply any_merged_false
  intro e he
  obtain ⟨f, a, c, he2⟩ := hres e he
  subst he2
  rfl

theorem denote_res_part {P : Type} (lm : Nat → Option (LogData P))
    (stack res : List (CacheEntry P)) (hsub : ∀ e ∈ res, e ∈ stack)
    (hres : allRes res)
    (hinmem : ∀ e ∈ stack, ∀ f, entryFrag e = some f →
      pullFrag lm (entryLL e).1 (entryLL e).2 = some f) :
    pullAll lm (res.map entryLL) = some (res.filterMap entryFrag) := by
  apply denote_of_inmem
  · intro e he
    obtain ⟨f, a, c, he2⟩ := hres e he
    subst he2
    rfl
  · intro e he f hf
    exact hinmem e (hsub e he) f hf

/-- The value `page_in` computes from a stack that satisfies the single-pid
invariant: an empty stack reads as None with an empty history; a bare
MergedResident short-circuits to its own fragment (whose history is that one
fragment); every other stack reads as merge of the oldest-first history. -/
theorem page_in_read_of_good {P : Type} (merge : List P → P)
    (lm : Nat → Option (LogData P)) (n : Nat) (stack : List (CacheEntry P))
    (h : List P) (hg : GoodStack lm n stack h) :
    (stack = [] → h = [] ∧ page_in_read merge lm stack = .absent) ∧
    (∀ f a c, stack = [CacheEntry.MergedResident f a c] →
      h = [f] ∧ page_in_read merge lm stack = .found f) ∧
    (stack ≠ [] →
      (∀ f a c, stack.head? ≠ some (CacheEntry.MergedResident f a c)) →
      page_in_read merge lm stack = .found (merge h)) := by
  refine ⟨?_, ?_, ?_⟩
  · intro hnil
    subst hnil
    have hd := hg.denote
    unfold stackDenote at hd
    simp only [List.map_nil, pullAll] at hd
    have hd2 : ([] : List P) = h.reverse := Option.some.inj hd
    refine ⟨?_, rfl⟩
    have hd3 := congrArg List.reverse hd2
    simpa using hd3.symm
  · intro f a c hm
    subst hm
    have hd := hg.denote
    unfold stackDenote at hd
    have hpf2 : pullFrag lm a c = some f :=
      hg.inmem (CacheEntry.MergedResident f a c) (by simp) f rfl
    simp only [List.map_cons, List.map_nil, pullAll, entryLL, hpf2] at hd
    have hh : h = [f] := by
      have h2 : [f] = h.reverse := Option.some.inj hd
      have h3 := congrArg List.reverse h2
      simp at h3
      exact h3.symm
    exact ⟨hh, by simp [page_in_read, collectStack, collectGo]⟩
  · intro hne hhead
    obtain ⟨e, rest, hcons⟩ := List.exists_cons_of_ne_nil hne
    have hM : isMergedRes e = false := by
      cases e with
      | MergedResident f a c =>
        exact absurd (by rw [hcons]; rfl) (hhead f a c)
      | Resident f a c => rfl
      | PartialFlush a c => rfl
      | Flush a c => rfl
    have hcoll : collectStack stack =
        .done (tmSpec stack) (stack.any isMergedRes)
          (stack.map entryLL)
          (if stack.any isMergedRes
           then stack.findIdx isMergedRes else 0) := by
      rw [hcons]
      exact collectStack_eq e rest hM
    obtain ⟨res, tail, hsp, hres, htail⟩ := hg.shape
    have hsub : ∀ x ∈ res, x ∈ stack := by
      intro x hx
      rw [hsp]
      exact List.mem_append_left _ hx
    have hdres := denote_res_part lm stack res hsub hres hg.inmem
    have hd := hg.denote
    unfold stackDenote at hd
    rw [hsp, List.map_append, pullAll_append, hdres] at hd
    have hlenfm := filterMap_allRes_length res hres
    unfold page_in_read
    rw [hcoll]
    have hlne : (stack.map entryLL).isEmpty = false := by
      rw [hcons]
      rfl
    simp only [hlne, Bool.false_eq_true, if_false]
    cases htail with
    | merged f0 a0 c0 =>
      -- the MergedResident below the top: nothing is pulled
      have hany : stack.any isMergedRes = true := by
        rw [hsp]
        simp [isMergedRes]
      have hpf02 : pullFrag lm a0 c0 = some f0 :=
        hg.inmem (CacheEntry.MergedResident f0 a0 c0)
          (by rw [hsp]; simp) f0 rfl
      simp only [List.map_cons, List.map_nil, pullAll, entryLL, hpf02] at hd
      have htm : tmSpec stack = res.filterMap entryFrag ++ [f0] := by
        rw [hsp, tmSpec_allRes_append res hres]
        rfl
      have hrev : h.reverse = res.filterMap entryFrag ++ [f0] :=
        (Option.some.inj hd).symm
      simp only [hany, if_true, pullAll]
      rw [htm]
      have : (res.filterMap entryFrag ++ [f0] ++ []).reverse = h := by
        rw [List.append_nil, ← hrev, List.reverse_reverse]
      rw [this]
    | nil =>
      have hany : stack.any isMergedRes = false := by
        rw [hsp, List.append_nil]
        exact allRes_any_merged_false res hres
      have htm : tmSpec stack = res.filterMap entryFrag := by
        rw [hsp, tmSpec_allRes_append res hres]
        simp [tmSpec]
      simp only [List.map_nil, pullAll] at hd
      have hrev : h.reverse = res.filterMap entryFrag := by
        have h2 := (Option.some.inj hd).symm
        simpa using h2
      simp only [hany, Bool.false_eq_true, if_false, htm, hlenfm]
      rw [hsp, List.append_nil]
      rw [show res.length = (List.map entryLL res).length from
        (List.length_map res entryLL).symm, List.drop_length]
      simp only [pullAll]
      rw [List.append_nil, ← hrev, List.reverse_reverse]
    | flushed pfs a0 c0 hpf =>
      have hany : stack.any isMergedRes = false := by
        rw [hsp]
        apply any_merged_false
        intro x hx
        rcases List.mem_append.mp hx with h1 | h1
        · obtain ⟨f, a, c, hx2⟩ := hres x h1
          subst hx2
          rfl
        · rcases List.mem_append.mp h1 with h2 | h2
          · obtain ⟨a, c, hx2⟩ := hpf x h2
            subst hx2
            rfl
          · rw [List.mem_singleton.mp h2]
            rfl
      have htm : tmSpec stack = res.filterMap entryFrag := by
        rw [hsp, tmSpec_allRes_append res hres, tmSpec_nofrag]
        · simp
        · intro x hx
          rcases List.mem_append.mp hx with h2 | h2
          · obtain ⟨a, c, hx2⟩ := hpf x h2
            subst hx2
            rfl
          · rw [List.mem_singleton.mp h2]
            rfl
      cases hys : pullAll lm ((pfs ++ [CacheEntry.Flush a0 c0]).map entryLL)
        with
      | none => rw [hys] at hd; exact absurd hd (by simp)
      | some ys =>
        rw [hys] at hd
        have hrev : h.reverse = res.filterMap entryFrag ++ ys :=
          (Option.some.inj hd).symm
        simp only [hany, Bool.false_eq_true, if_false, htm, hlenfm]
        rw [hsp, List.map_append]
        rw [show res.length = (List.map entryLL res).length from
          (List.length_map res entryLL).symm, List.drop_left]
        simp only [hys]
        rw [← hrev, List.reverse_reverse]

theorem inv_init {P : Type} :
    Inv1 0 ((allocateOp (emptyPC P)).2) [] none := by
  refine ⟨[], by simp [allocateOp, emptyPC], ⟨?_, ?_, ?_, ?_⟩, ?_, ?_⟩
  · exact ⟨[], [], rfl, by intro e he; simp at he, TailShape.nil⟩
  · rfl
  · intro e he; simp at he
  · intro e he; simp at he
  · intro l hl
    have hl2 : (1 : Nat) ≤ l := hl
    have hne : l ≠ 0 := by omega
    simp [allocateOp, emptyPC, hne]
  · exact ⟨fun f hf => (nomatch hf), fun _ f a c => by simp⟩

theorem run1_inv {P : Type} [DecidableEq P] (pid : Nat) :
    ∀ (ops : List (Op1 P)) (st : PCState P) (h : List P) (bare : Option P)
      (st2 : PCState P), Inv1 pid st h bare →
      run1 pid ops st = some st2 →
      Inv1 pid st2 (ops.foldl histStep h) (ops.foldl bareStep bare) := by
  intro ops
  induction ops with
  | nil =>
    intro st h bare st2 hinv hrun
    simp only [run1, Option.some.injEq] at hrun
    subst hrun
    exact hinv
  | cons op rest ih =>
    intro st h bare st2 hinv hrun
    cases op with
    | link f =>
      obtain ⟨stack, htab, hok, hinv2⟩ := link_pres pid st h bare f hinv
      cases hlp : linkOp st pid stack f with
      | mk r s2 =>
        rw [hlp] at hok hinv2
        simp only at hok hinv2
        subst hok
        simp only [run1, htab, hlp] at hrun
        have := ih s2 (h ++ [f]) none st2 hinv2 hrun
        simpa [histStep, bareStep] using this
    | replace f =>
      obtain ⟨stack, htab, hok, hinv2⟩ := replace_pres pid st h bare f hinv
      cases hlp : replaceOp st pid stack f with
      | mk r s2 =>
        rw [hlp] at hok hinv2
        simp only at hok hinv2
        subst hok
        simp only [run1, htab, hlp] at hrun
        have := ih s2 [f] (some f) st2 hinv2 hrun
        simpa [histStep, bareStep] using this
    | pageOut =>
      obtain ⟨s2, hpo, hinv2⟩ := pageOut_pres pid st h bare hinv
      simp only [run1, hpo] at hrun
      have := ih s2 h none st2 hinv2 hrun
      simpa [histStep, bareStep] using this

theorem foldl_bareStep_eq {P : Type} :
    ∀ (ops : List (Op1 P)) (b0 : Option P),
      ops.foldl bareStep b0 =
        (match ops.getLast? with
         | some op => bareStep none op
         | none => b0) := by
  intro ops
  induction ops with
  | nil => intro b0; rfl
  | cons op rest ih =>
    intro b0
    cases rest with
    | nil => cases op <;> rfl
    | cons op2 rest2 =>
      rw [List.foldl_cons, ih, List.getLast?_cons_cons]
      cases hgl : (op2 :: rest2).getLast? with
      | some op3 => rfl
      | none => simp at hgl

theorem foldl_bareStep_eq_lastBare {P : Type} (ops : List (Op1 P)) :
    ops.foldl bareStep none = lastBare ops := by
  rw [foldl_bareStep_eq]
  unfold lastBare
  cases hop : ops.getLast? with
  | none => rfl
  | some op => cases op <;> rfl

/-- C1 (amended): running any sequence of successful link / replace /
page_out operations on a freshly allocated pid and then reading the page:
when no fragment was ever linked or replaced, get returns None; when the
final operation is a replace (with nothing after it), get short-circuits and
returns that replace's fragment directly, without invoking merge — the
history is that single fragment, so this agrees with merge(history) exactly
when merge fixes singletons; in every other case get returns merge applied
to the oldest-first sequence of fragments CAS'd since the last successful
replace. -/
theorem claim1_merge_linearity {P : Type} [DecidableEq P]
    (merge : List P → P) (ops : List (Op1 P)) (st : PCState P)
    (hrun : run1 0 ops ((allocateOp (emptyPC P)).2) = some st) :
    (frag_hist ops = [] → getOp merge st 0 = .absent) ∧
    (∀ f, lastBare ops = some f →
      getOp merge st 0 = .found f ∧ frag_hist ops = [f]) ∧
    (lastBare ops = none → frag_hist ops ≠ [] →
      getOp merge st 0 = .found (merge (frag_hist ops))) := by
  have hinv := run1_inv 0 ops ((allocateOp (emptyPC P)).2) [] none st
    inv_init hrun
  rw [foldl_bareStep_eq_lastBare] at hinv
  obtain ⟨stack, htab, hg, hfresh, hbare⟩ := hinv
  have hread := page_in_read_of_good merge st.logMap st.nextLsn stack
    (frag_hist ops) hg
  have hgetOp : getOp merge st 0 = page_in_read merge st.logMap stack := by
    simp [getOp, htab]
  have hlen : stack.length = (frag_hist ops).length := by
    have hd := hg.denote
    unfold stackDenote at hd
    have := pullAll_length st.logMap _ _ hd
    simpa using this.symm
  refine ⟨?_, ?_, ?_⟩
  · intro hh
    have hsnil : stack = [] := by
      rw [hh] at hlen
      exact List.eq_nil_of_length_eq_zero (by simpa using hlen)
    rw [hgetOp]
    exact (hread.1 hsnil).2
  · intro f hf
    obtain ⟨a, c, hstack⟩ := hbare.1 f hf
    have := hread.2.1 f a c hstack
    exact ⟨hgetOp.trans this.2, this.1⟩
  · intro hbn hhne
    have hsne : stack ≠ [] := by
      intro hs
      rw [hs] at hlen
      exact hhne (List.eq_nil_of_length_eq_zero (by simpa using hlen.symm))
    rw [hgetOp]
    exact hread.2.2 hsne (hbare.2 hbn)

/-- C1 counterexample: with a materializer whose merge is sum-plus-one (so
merge([5]) = 6 ≠ 5), the successful sequence consisting of one replace(5)
leaves get returning 5 — the replace's fragment, via the short circuit on a
top MergedResident — and not merge of the oldest-first fragment history [5],
which is 6.  The claim that get always returns merge of the history since
the last replace is therefore false as stated. -/
theorem claim1_counterexample :
    (run1 0 [Op1.replace 5] ((allocateOp (emptyPC Nat)).2)).map
      (fun st => getOp (fun l => l.sum + 1) st 0) =
      some (.found 5) ∧
    frag_hist [Op1.replace (5 : Nat)] = [5] ∧
    (fun l : List Nat => l.sum + 1) [5] = 6 ∧
    GetRes.found (5 : Nat) ≠ GetRes.found 6 := by
  refine ⟨by decide, by decide, by decide, by decide⟩

theorem claim1_witness :
    frag_hist [Op1.link (1 : Nat), Op1.link 2] = [1, 2] ∧
    lastBare [Op1.link (1 : Nat), Op1.link 2] = none ∧
    (run1 0 [Op1.link 1, Op1.link 2] ((allocateOp (emptyPC Nat)).2)).map
      (fun st => getOp (fun l => l.sum + 1) st 0) =
      some (.found ((fun l : List Nat => l.sum + 1) [1, 2])) := by
  refine ⟨by decide, by decide, ?_⟩
  cases hrun : run1 0 [Op1.link 1, Op1.link 2]
      ((allocateOp (emptyPC Nat)).2) with
  | none =>
    have : (run1 0 [Op1.link (1 : Nat), Op1.link 2]
        ((allocateOp (emptyPC Nat)).2)).isSome = true := by decide
    rw [hrun] at this
    cases this
  | some st =>
    have hmain := (claim1_merge_linearity (fun l => l.sum + 1)
      [Op1.link 1, Op1.link 2] st hrun).2.2 (by decide) (by decide)
    show some (getOp (fun l => l.sum + 1) st 0) = _
    rw [hmain]
    rfl

end Sled
